import Mathlib

/-!
Shallow embedding of the TPNet transport-network simulation core
(tpnet.py: classes Net, Car, Passenger) together with theorems checking
the natural-language specification against it.

Modelling conventions:
* Python deques become Lean lists; `popleft` takes the head, `append`
  concatenates at the tail.
* Vertex identifiers are integer indices throughout (the `namelup`
  name-lookup machinery of the source is the `namelup = False` path:
  every route and position is an index, so the name branches are never
  taken).
* A position (`cur` attribute) is either a vertex index or the
  edge-transit marker string "s-t"; this is the inductive type `Cur`.
* Database logging (db.py) is pure side effect on an external sink and
  is dropped; the `CurrentDb` context always provides a database, so the
  `RuntimeWarning` for a missing cursor never fires.
* Python exceptions that abort a simulation pass are modelled by
  threading the state and returning `Option SimError`: mutations made
  before the raise persist, later work is not done, which matches
  in-place mutation plus exception propagation.
* Machine integers: ids, sizes and vertex indices are `Nat`; edge
  weights are `Int` (they are only compared and added).
-/

/-- Current position of a car or passenger: a vertex index, or the
"s-t" marker used while a car is in transition on the edge s→t. -/
inductive Cur where
  | vert : Nat → Cur
  | onEdge : Nat → Nat → Cur
deriving DecidableEq

/-- Passenger (tpnet.py class Passenger, integer-route path:
`namelup = False`, so `cur` and the route entries are vertex indices). -/
structure Passenger where
  id : Nat
  route : List Nat
  cur : Cur
deriving DecidableEq

/-- Passenger.get_next: next destination in `route`, or the current
position when the route is empty (IndexError branch). -/
def Passenger.get_next (p : Passenger) : Cur :=
  match p.route with
  | [] => p.cur
  | x :: _ => Cur.vert x

/-- Passenger.take_next: pop and return the next destination; on an
empty route return the current position and leave the route empty. -/
def Passenger.take_next (p : Passenger) : Cur × Passenger :=
  match p.route with
  | [] => (p.cur, p)
  | x :: rest => (Cur.vert x, { p with route := rest })

/-- Passenger.get_last: last destination in `route`, or the current
position when the route is empty. -/
def Passenger.get_last (p : Passenger) : Cur :=
  match p.route.getLast? with
  | none => p.cur
  | some x => Cur.vert x

/-- Passenger.chcur with `namelup = False`: set `cur` to the new
position (logging dropped). -/
def Passenger.chcur (p : Passenger) (newcur : Cur) : Passenger :=
  { p with cur := newcur }

/-- Car (tpnet.py class Car, integer-route path). `rep` is the source's
`repeat` attribute (`repeat` is reserved in Lean). `size` is the
passenger capacity, `inside` the onboard passengers, `can_move` the
per-tick movement lock. -/
structure Car where
  id : Nat
  size : Nat
  route : List Nat
  cur : Cur
  inside : List Passenger
  can_move : Bool
  rep : Bool
deriving DecidableEq

/-- Car.get_next: next destination in `route`, or the current position
when the route is empty (IndexError branch). -/
def Car.get_next (c : Car) : Cur :=
  match c.route with
  | [] => c.cur
  | x :: _ => Cur.vert x

/-- Car.take_next: pop and return the next destination; the pop on an
empty route raises IndexError (`none`). If the car route is circular
(`rep`), the taken vertex is appended back. -/
def Car.take_next (c : Car) : Option (Nat × Car) :=
  match c.route with
  | [] => none
  | x :: rest => some (x, { c with route := if c.rep then rest ++ [x] else rest })

/-- Car.get_last: last destination in `route`, or the current position
when the route is empty. -/
def Car.get_last (c : Car) : Cur :=
  match c.route.getLast? with
  | none => c.cur
  | some x => Cur.vert x

/-- Car.chcur with `namelup = False`: set `cur`, update every onboard
passenger's position, and when `update_inside` also pop the next vertex
from each onboard passenger's route (logging dropped). -/
def Car.chcur (c : Car) (newcur : Cur) (update_inside : Bool) : Car :=
  { c with cur := newcur,
           inside := c.inside.map (fun p =>
             if update_inside then ((p.chcur newcur).take_next).2
             else p.chcur newcur) }

/-- Membership test `x in route` of the source, where `x` may be a
vertex index or an edge marker; an edge-marker string is never equal to
an integer route entry. -/
def memRoute : Cur → List Nat → Bool
  | Cur.vert x, r => decide (x ∈ r)
  | Cur.onEdge _ _, _ => false

/-- Onboard-queue split performed by Car.peject: the source pops each
onboard passenger and keeps it when its next hop is still in the car's
remaining route, ejecting it otherwise; with exactly `len(inside)`
iterations the kept passengers stay in order and the ejected ones come
out in encounter order. -/
def pejectSplit (route : List Nat) : List Passenger → List Passenger × List Passenger
  | [] => ([], [])
  | p :: rest =>
    let pr := pejectSplit route rest
    if memRoute p.get_next route then (p :: pr.1, pr.2) else (pr.1, p :: pr.2)

/-- Car.peject: eject the onboard passengers that need to transfer.
Raises RuntimeError (`none`) when the car is not at the expected
location; otherwise returns the car with the kept passengers and the
ejected ones. -/
def Car.peject (c : Car) (current : Cur) : Option (Car × List Passenger) :=
  if c.cur ≠ current then none
  else
    let pr := pejectSplit c.route c.inside
    some ({ c with inside := pr.1 }, pr.2)

/-- Errors that abort a simulation pass (Python exceptions raised by
tpnet.py during move_cars / ptransfer). -/
inductive SimError where
  | stuck : Nat → Nat → SimError
  | idxErr : Nat → SimError
  | keyErr : Nat → SimError
  | locErr : Nat → SimError
deriving DecidableEq

/-- Transport network state (tpnet.py class Net). `vinside`, `vontrack`
are indexed by vertex, `venroute` and `vweight` by edge position in
`edges`. `allcars` / `allpassengers` hold the ids present in the
registry dictionaries; the Python id→object values are aliases of the
objects stored in the container queues. The `Car.total` /
`Passenger.total` module-global counters are carried as `car_total` /
`pgr_total`. -/
structure Net where
  n : Nat
  edges : List (Nat × Nat)
  vweight : List Int
  vinside : List (List Passenger)
  vontrack : List (List Car)
  venroute : List (List Car)
  allcars : List Nat
  allpassengers : List Nat
  car_total : Nat
  pgr_total : Nat
deriving DecidableEq

/-- Weight assignment of Net.__init__ when a `weight` kwarg is given:
`zip(self.g.edges(), weight)` sets the first `min` weights and leaves
the remaining edges at the float property default 0. -/
def weightsFrom (edges : List (Nat × Nat)) (w : List Int) : List Int :=
  (edges.zip w).map Prod.snd ++ List.replicate (edges.length - w.length) 0

/-- Net.__init__ on the integer-indexed path (no vertex names, explicit
edge list, empty starting occupancy): stores the edges and weights as
given — there is no validation of weights or of anything else. -/
def Net.init (size : Nat) (edges : List (Nat × Nat)) (weight : Option (List Int)) : Net :=
  { n := size
    edges := edges
    vweight := match weight with
      | some w => weightsFrom edges w
      | none => edges.map (fun _ => 1)
    vinside := List.replicate size []
    vontrack := List.replicate size []
    venroute := edges.map (fun _ => [])
    allcars := []
    allpassengers := []
    car_total := 0
    pgr_total := 0 }

/-- Graph.get_out_neighbors: targets of the outgoing edges of `v`, in
edge-insertion order. -/
def Net.get_out_neighbors (net : Net) (v : Nat) : List Nat :=
  (net.edges.filter (fun e => e.1 == v)).map Prod.snd

/-- Position of the first edge v→t in the edge list (Graph.edge). -/
def Net.edgeIdx (net : Net) (v t : Nat) : Option Nat :=
  net.edges.findIdx? (fun e => e == (v, t))

/-- Phase 1 inner loop of Net.move_cars for one edge queue (source
`move_cars_to_vertices` plus the popleft / append-back driver): iterate
`k = len(venroute[e])` times; each time pop the front car; a movable car
pops its next route vertex (IndexError aborts), is appended to that
vertex's `vontrack`, gets `chcur` with `update_inside = True`, and is
locked; an unmovable car is appended back. -/
def phase1Iter (e : Nat) : Nat → Net → Net × Option SimError
  | 0, net => (net, none)
  | k + 1, net =>
    match net.venroute.getD e [] with
    | [] => (net, none)
    | c :: rest =>
      let net1 := { net with venroute := net.venroute.set e rest }
      if c.can_move then
        match c.take_next with
        | none => (net1, some (SimError.idxErr c.id))
        | some (nextvert, c1) =>
          let c2 := { c1.chcur (Cur.vert nextvert) true with can_move := false }
          let vt := net1.vontrack.set nextvert ((net1.vontrack.getD nextvert []) ++ [c2])
          phase1Iter e k { net1 with vontrack := vt }
      else
        let net2 := { net1 with venroute := net1.venroute.set e (rest ++ [c]) }
        phase1Iter e k net2

/-- Phase 1 of Net.move_cars: process every edge in order. -/
def phase1Edges : List Nat → Net → Net × Option SimError
  | [], net => (net, none)
  | e :: rest, net =>
    match phase1Iter e (net.venroute.getD e []).length net with
    | (net', some err) => (net', some err)
    | (net', none) => phase1Edges rest net'

/-- Phase 1 of Net.move_cars over all edges. -/
def phase1 (net : Net) : Net × Option SimError :=
  phase1Edges (List.range net.edges.length) net

/-- Phase 2 inner loop of Net.move_cars for one vertex queue (source
`move_cars_to_edges` plus the popleft / append-back driver): iterate
`k = len(vontrack[v])` times; each time pop the front car; for a
movable car peek the next route vertex: equal to `v` means the car
reached its destination and is popped from `allcars` (KeyError if
absent); otherwise, when the vertex is an out-neighbor the car is
appended to that edge's queue, gets `chcur` with
`update_inside = False`, and is locked; otherwise the stuck-car
RuntimeWarning is raised (the `db.log` after the raise is dead code).
An unmovable car is appended back. -/
def phase2Iter (v : Nat) : Nat → Net → Net × Option SimError
  | 0, net => (net, none)
  | k + 1, net =>
    match net.vontrack.getD v [] with
    | [] => (net, none)
    | c :: rest =>
      let net1 := { net with vontrack := net.vontrack.set v rest }
      if c.can_move then
        if c.get_next = Cur.vert v then
          if c.id ∈ net1.allcars then
            phase2Iter v k { net1 with allcars := net1.allcars.erase c.id }
          else (net1, some (SimError.keyErr c.id))
        else
          match c.get_next with
          | Cur.vert nv =>
            if nv ∈ net1.get_out_neighbors v then
              match net1.edgeIdx v nv with
              | some e =>
                let c2 := { c.chcur (Cur.onEdge v nv) false with can_move := false }
                let er := net1.venroute.set e ((net1.venroute.getD e []) ++ [c2])
                phase2Iter v k { net1 with venroute := er }
              | none => (net1, some (SimError.stuck c.id v))
            else (net1, some (SimError.stuck c.id v))
          | Cur.onEdge _ _ => (net1, some (SimError.stuck c.id v))
      else
        let net2 := { net1 with vontrack := net1.vontrack.set v (rest ++ [c]) }
        phase2Iter v k net2

/-- Phase 2 of Net.move_cars: process every vertex in order. -/
def phase2All : List Nat → Net → Net × Option SimError
  | [], net => (net, none)
  | v :: rest, net =>
    match phase2Iter v (net.vontrack.getD v []).length net with
    | (net', some err) => (net', some err)
    | (net', none) => phase2All rest net'

/-- Unlock pass of Net.move_cars: set `can_move = True` on every car
residing in any vertex or edge queue. The source runs this
unconditionally — the `unlock` argument is never consulted. -/
def unlockAll (net : Net) : Net :=
  { net with
    vontrack := net.vontrack.map (fun q => q.map (fun c => { c with can_move := true }))
    venroute := net.venroute.map (fun q => q.map (fun c => { c with can_move := true })) }

/-- Net.move_cars: phase 1 (edges to vertices), phase 2 (vertices to
edges), then the unconditional unlock pass. An exception raised in a
phase propagates: the mutations made so far persist and nothing later
runs. -/
def Net.move_cars (net : Net) (unlock : Bool) : Net × Option SimError :=
  match phase1 net with
  | (n1, some err) => (n1, some err)
  | (n1, none) =>
    match phase2All (List.range n1.n) n1 with
    | (n2, some err) => (n2, some err)
    | (n2, none) => (unlockAll n2, none)

/-- put_passenger_inside of Net.ptransfer, scanning the parked cars for
the first that can take the passenger: a full car is skipped (soft
rejection); a car with room boards the passenger only when the
passenger's next hop occurs in the car's remaining route, otherwise the
scan continues. Returns the updated car list on success. -/
def boardScan (p : Passenger) (pnextvert : Cur) : List Car → Option (List Car)
  | [] => none
  | c :: rest =>
    if c.inside.length ≥ c.size then
      (boardScan p pnextvert rest).map (fun l => c :: l)
    else
      if memRoute pnextvert c.route then
        some ({ c with inside := c.inside ++ [p] } :: rest)
      else
        (boardScan p pnextvert rest).map (fun l => c :: l)

/-- Ejection pass of Net.ptransfer at one vertex: run Car.peject on
every parked car in place, collecting the ejected passengers into the
transfer buffer; a location mismatch raises, keeping the mutations made
to the earlier cars and discarding the buffer. -/
def pejectLoopCars (current : Cur) : List Car → List Car × List Passenger × Option Nat
  | [] => ([], [], none)
  | c :: rest =>
    match c.peject current with
    | none => (c :: rest, [], some c.id)
    | some (c', ej) =>
      let pr := pejectLoopCars current rest
      (c' :: pr.1, ej ++ pr.2.1, pr.2.2)

/-- Waiting-queue loop of Net.ptransfer at one vertex: iterate
`k = len(vinside[v])` times popping the front passenger; a passenger
whose next hop is this vertex has arrived and is popped from
`allpassengers` (KeyError if absent); otherwise it boards the first
compatible parked car, or is appended back to the waiting queue. -/
def pvertexInsideLoop (v : Nat) : Nat → Net → Net × Option SimError
  | 0, net => (net, none)
  | k + 1, net =>
    match net.vinside.getD v [] with
    | [] => (net, none)
    | p :: rest =>
      let net1 := { net with vinside := net.vinside.set v rest }
      let pnextvert := p.get_next
      if pnextvert ≠ Cur.vert v then
        match boardScan p pnextvert (net1.vontrack.getD v []) with
        | some cars' =>
          pvertexInsideLoop v k { net1 with vontrack := net1.vontrack.set v cars' }
        | none =>
          pvertexInsideLoop v k { net1 with vinside := net1.vinside.set v (rest ++ [p]) }
      else
        if p.id ∈ net1.allpassengers then
          pvertexInsideLoop v k { net1 with allpassengers := net1.allpassengers.erase p.id }
        else (net1, some (SimError.keyErr p.id))

/-- Net.ptransfer body for one vertex: eject passengers from the parked
cars into the buffer, run the waiting-queue loop, then append the
buffer to the vertex's waiting queue. -/
def ptransferVertex (v : Nat) (net : Net) : Net × Option SimError :=
  let pr := pejectLoopCars (Cur.vert v) (net.vontrack.getD v [])
  let net1 := { net with vontrack := net.vontrack.set v pr.1 }
  match pr.2.2 with
  | some cid => (net1, some (SimError.locErr cid))
  | none =>
    match pvertexInsideLoop v (net1.vinside.getD v []).length net1 with
    | (net2, some err) => (net2, some err)
    | (net2, none) =>
      (( { net2 with vinside := net2.vinside.set v ((net2.vinside.getD v []) ++ pr.2.1) } ), none)

/-- Net.ptransfer over a list of vertices. -/
def ptransferAll : List Nat → Net → Net × Option SimError
  | [], net => (net, none)
  | v :: rest, net =>
    match ptransferVertex v net with
    | (net', some err) => (net', some err)
    | (net', none) => ptransferAll rest net'

/-- Net.ptransfer: transfer passengers out of and into cars at the
given vertices (all vertices when no subset is supplied). -/
def Net.ptransfer (net : Net) (targets : Option (List Nat)) : Net × Option SimError :=
  match targets with
  | some ts => ptransferAll ts net
  | none => ptransferAll (List.range net.n) net

/-- One simulation step as the specification defines it (movement tick
followed by the transfer pass over all vertices, an indivisible unit);
an exception from the movement tick propagates and the transfer pass
does not run. -/
def Net.step (net : Net) (unlock : Bool) : Net × Option SimError :=
  match net.move_cars unlock with
  | (n1, some err) => (n1, some err)
  | (n1, none) => n1.ptransfer none

/-- Net.step iterated (error states stop advancing, mirroring a driver
that re-raises). -/
def Net.stepN (net : Net) : Nat → Net × Option SimError
  | 0 => (net, none)
  | k + 1 =>
    match net.step true with
    | (n1, some err) => (n1, some err)
    | (n1, none) => n1.stepN k

/-- Car constructed by Car.__init__ from a route of vertex indices with
the default capacity 20: `cur` is popped from the front of the route
(IndexError on an empty route), the car starts unlocked and with no
onboard passengers. -/
def Car.mkFromRoute (id : Nat) (route : List Nat) : Option Car :=
  match route with
  | [] => none
  | x :: rest =>
    some { id := id, size := 20, route := rest, cur := Cur.vert x,
           inside := [], can_move := true, rep := false }

/-- Net.spawn_car with an explicit route: create the car (taking the
next global car id), append it to the target vertex's `vontrack` and
record it in `allcars`. The source never forwards a capacity kwarg to
the Car constructor, so the capacity is always the default 20. -/
def Net.spawn_car_with_route (net : Net) (target : Nat) (route : List Nat) : Option Net :=
  match Car.mkFromRoute net.car_total route with
  | none => none
  | some car =>
    some { net with
      car_total := net.car_total + 1
      vontrack := net.vontrack.set target ((net.vontrack.getD target []) ++ [car])
      allcars := net.allcars ++ [car.id] }

/-- Search state of the shortest-path computation. `dist` holds the
tentative distances, `pred` the predecessor links, `visited` the
finalized vertices, `dorder` the vertices in discovery order (for the
deterministic tie-break), and `out` the emitted search-tree edges in
finalization order. -/
structure DijkstraState where
  dist : List (Option Int)
  pred : List (Option Nat)
  visited : List Bool
  dorder : List Nat
  out : List (Nat × Nat)
deriving DecidableEq

/-- Scan of the discovered vertices for the unvisited one with minimal
tentative distance; ties keep the earlier-discovered vertex. -/
def pickMinGo (dist : List (Option Int)) (visited : List Bool) :
    List Nat → Option (Nat × Int) → Option (Nat × Int)
  | [], best => best
  | v :: rest, best =>
    if visited.getD v true then pickMinGo dist visited rest best
    else
      match dist.getD v none with
      | none => pickMinGo dist visited rest best
      | some d =>
        match best with
        | none => pickMinGo dist visited rest (some (v, d))
        | some (bv, bd) =>
          if d < bd then pickMinGo dist visited rest (some (v, d))
          else pickMinGo dist visited rest (some (bv, bd))

/-- Extraction step: the unvisited discovered vertex with minimal
tentative distance, if any. -/
def pickMin (st : DijkstraState) : Option Nat :=
  (pickMinGo st.dist st.visited st.dorder none).map Prod.fst

/-- Relaxation of the outgoing edges of the just-finalized vertex `u`
with distance `du`: for every edge u→b with an unvisited head whose
tentative distance improves (strict comparison: the first relaxation
wins ties), update distance and predecessor and record a first
discovery. -/
def relaxEdges (u : Nat) (du : Int) :
    List ((Nat × Nat) × Int) → DijkstraState → DijkstraState
  | [], st => st
  | ((a, b), w) :: rest, st =>
    let st' :=
      if a = u ∧ st.visited.getD b true = false then
        match st.dist.getD b none with
        | none =>
          { st with dist := st.dist.set b (some (du + w)),
                    pred := st.pred.set b (some u),
                    dorder := st.dorder ++ [b] }
        | some db =>
          if du + w < db then
            { st with dist := st.dist.set b (some (du + w)),
                      pred := st.pred.set b (some u) }
          else st
      else st
    relaxEdges u du rest st'

/-- One iteration of the search loop: extract the minimal unvisited
discovered vertex, mark it visited, emit its predecessor edge (the
source vertex has none), and relax its outgoing edges. -/
def dijkstraStep (net : Net) (st : DijkstraState) : Option DijkstraState :=
  match pickMin st with
  | none => none
  | some u =>
    let du := (st.dist.getD u none).getD 0
    let st1 := { st with visited := st.visited.set u true,
                         out := match st.pred.getD u none with
                                | some p => st.out ++ [(p, u)]
                                | none => st.out }
    some (relaxEdges u du (net.edges.zip net.vweight) st1)

/-- Search loop, driven by fuel; `net.n` iterations always reach the
fixed point because each iteration finalizes one more vertex. -/
def dijkstraLoop (net : Net) : Nat → DijkstraState → DijkstraState
  | 0, st => st
  | fuel + 1, st =>
    match dijkstraStep net st with
    | none => st
    | some st' => dijkstraLoop net fuel st'

/-- Starting search state: only the source is discovered, at distance
zero. -/
def dijkstraInit (net : Net) (source : Nat) : DijkstraState :=
  { dist := (List.replicate net.n (none : Option Int)).set source (some 0)
    pred := List.replicate net.n none
    visited := List.replicate net.n false
    dorder := [source]
    out := [] }

/-- Modelled from the spec: `gt.search.dijkstra_iterator(self.g,
self.vweight, source=source, array=True)` is the external graph_tool
library, absent from the repository. Spec section 4.1 describes it:
single-source shortest path by cumulative edge weight
(Dijkstra-equivalent), maintaining best-known distances, repeatedly
extracting the unvisited vertex of minimal tentative distance and
relaxing its outgoing edges, ties broken by discovery order (first
relaxed wins), with the path reconstructed by walking predecessor
links; the produced array holds the predecessor-tree edges. -/
def dijkstraEdges (net : Net) (source : Nat) : List (Nat × Nat) :=
  (dijkstraLoop net net.n (dijkstraInit net source)).out

/-- One scan of the search-edge array in the route-reconstruction loop
of Net.get_route: every edge whose head equals the current target
prepends its tail to the route and moves the target there, setting the
found flag. -/
def walkPass : List (Nat × Nat) → List Nat → Nat → Bool → List Nat × Nat × Bool
  | [], route, target, found => (route, target, found)
  | (cs, cd) :: rest, route, target, found =>
    if cd = target then walkPass rest (cs :: route) cs true
    else walkPass rest route target found

/-- While-loop of Net.get_route: while the route does not yet start at
the source, scan the search-edge array once; a scan that finds nothing
raises RuntimeError "cannot find route" (`none`). The fuel only models
non-termination, which cannot occur on a predecessor tree. -/
def walkLoop (source : Nat) (sg : List (Nat × Nat)) :
    Nat → List Nat → Nat → Option (List Nat)
  | 0, _, _ => none
  | fuel + 1, route, target =>
    match route with
    | [] => none
    | r0 :: _ =>
      if r0 = source then some route
      else
        let pr := walkPass sg route target false
        if pr.2.2 then walkLoop source sg fuel pr.1 pr.2.1 else none

/-- Net.get_route with integer endpoints: run the Dijkstra search from
the source and reconstruct the route back from the target; the result
is the deque of vertex indices from source to target inclusive. -/
def Net.get_route (net : Net) (src dst : Nat) : Option (List Nat) :=
  let sg := dijkstraEdges net src
  walkLoop src sg (sg.length + 2) [dst] dst

/-- Net.spawn_car with a destination kwarg: compute the route from the
target vertex and spawn the car there (RuntimeError from get_route
propagates: `none`). -/
def Net.spawn_car_dst (net : Net) (target dst : Nat) : Option Net :=
  match net.get_route target dst with
  | none => none
  | some route => net.spawn_car_with_route target route

/-- Every car in every vertex queue and edge queue is unlocked. -/
def Net.carsUnlocked (net : Net) : Bool :=
  net.vontrack.all (fun q => q.all (fun c => c.can_move)) &&
    net.venroute.all (fun q => q.all (fun c => c.can_move))

/-- The car's onboard count respects its capacity. -/
def capCar (c : Car) : Bool := c.inside.length ≤ c.size

/-- Every car in the list respects its capacity. -/
def carsCapOK (l : List Car) : Bool := l.all capCar

/-- Every car in every container of the network respects its
capacity. -/
def Net.capOK (net : Net) : Bool :=
  net.vontrack.all carsCapOK && net.venroute.all carsCapOK

lemma all_set_of_all {α : Type} (P : α → Bool) (l : List α) (i : Nat) (a : α)
    (hl : l.all P = true) (ha : P a = true) : (l.set i a).all P = true := by
  simp only [List.all_eq_true] at *
  intro x hx
  rcases List.mem_or_eq_of_mem_set hx with h | h
  · exact hl x h
  · subst h; exact ha

lemma p_getD_of_all {α : Type} (P : α → Bool) (l : List α) (i : Nat) (d : α)
    (hl : l.all P = true) (hd : P d = true) : P (l.getD i d) = true := by
  rcases Nat.lt_or_ge i l.length with h | h
  · rw [List.getD_eq_getElem l d h]
    exact (List.all_eq_true.mp hl) _ (List.getElem_mem h)
  · rwa [List.getD_eq_default l d h]

/-- The three-vertex line network A-B-C (indices 0,1,2) with unit
weights. -/
def lineNet : Net := Net.init 3 [(0, 1), (1, 2)] (some [1, 1])

/-- State after spawning one car at vertex 0 with destination 2 on the
line network. -/
def c3start : Net := (lineNet.spawn_car_dst 0 2).getD lineNet

/-- C3 counterexample: the spec scenario fails on the code. After the
first step the car is not parked at B (vertex 1): entering an edge and
arriving are separate ticks, so the first step only puts the car on the
edge A→B. After the third step the registry still contains the car (it
is on the edge B→C), so it is not yet destroyed. -/
theorem C3_counterexample :
    lineNet.spawn_car_dst 0 2 = some c3start ∧
    (c3start.stepN 1).1.vontrack.getD 1 [] = [] ∧
    0 ∈ (c3start.stepN 3).1.allcars := by decide

/-- C3 amended: on the 3-vertex line network with unit weights,
route(A,C) is [A,B,C]; the spawned car enters edge A→B on step 1,
arrives at B on step 2, enters edge B→C on step 3, arrives at C on step
4, and the fifth step destroys it (registry empty), all error-free. -/
theorem C3_amended :
    lineNet.get_route 0 2 = some [0, 1, 2] ∧
    lineNet.spawn_car_dst 0 2 = some c3start ∧
    ((c3start.stepN 1).1.venroute.getD 0 []).map Car.id = [0] ∧
    ((c3start.stepN 2).1.vontrack.getD 1 []).map Car.id = [0] ∧
    ((c3start.stepN 3).1.venroute.getD 1 []).map Car.id = [0] ∧
    ((c3start.stepN 4).1.vontrack.getD 2 []).map Car.id = [0] ∧
    (c3start.stepN 5).1.allcars = [] ∧
    (c3start.stepN 5).2 = none := by decide

/-- Car parked at vertex 0 whose next hop (vertex 2) has no outgoing
edge from vertex 0. -/
def stuckCarA : Car :=
  { id := 0, size := 20, route := [2], cur := Cur.vert 0,
    inside := [], can_move := true, rep := false }

/-- Healthy car parked at vertex 1 whose next hop 2 is reachable over
the edge 1→2. -/
def okCarB : Car :=
  { id := 1, size := 20, route := [2], cur := Cur.vert 1,
    inside := [], can_move := true, rep := false }

/-- Network with one stuck car at vertex 0 and one movable car at
vertex 1. -/
def stuckNet : Net :=
  { Net.init 3 [(1, 2)] (some [1]) with
    vontrack := [[stuckCarA], [okCarB], []], allcars := [0, 1] }

/-- C1 counterexample: the stuck-car error is raised, but contrary to
the claim the tick does not continue for the other entities (the
movable car at vertex 1 is never moved onto edge 1→2) and the stuck car
does not remain parked at its original vertex (it was popped from the
vertex queue before the raise and is never restored). -/
theorem C1_counterexample :
    (stuckNet.step true).2 = some (SimError.stuck 0 0) ∧
    (stuckNet.step true).1.vontrack.getD 0 [] = [] ∧
    ((stuckNet.step true).1.vontrack.getD 1 []).map Car.id = [1] ∧
    (stuckNet.step true).1.venroute.getD 0 [] = [] := by decide

/-- C1 amended: a car whose next hop is not an out-neighbor of its
current vertex makes step() raise exactly one stuck-car error, and the
raise aborts the remainder of the tick: the stuck car has already been
popped from its vertex queue and is not restored (it survives only in
the registry), the other car is left unmoved, and the transfer pass
does not run. -/
theorem C1_amended :
    (stuckNet.step true).2 = some (SimError.stuck 0 0) ∧
    (stuckNet.step true).1.vontrack = [[], [okCarB], []] ∧
    (stuckNet.step true).1.venroute = [[]] ∧
    (stuckNet.step true).1.allcars = [0, 1] := by decide

/-- C9 counterexample: Net.__init__ performs no weight validation:
constructing a network with a zero or negative edge weight completes
without any error and stores the weight as given. -/
theorem C9_counterexample :
    (Net.init 2 [(0, 1)] (some [-1])).vweight = [-1] ∧
    (Net.init 2 [(0, 1)] (some [0])).vweight = [0] := by decide

/-- C9 amended: non-positive edge weights are accepted silently; the
constructor stores any supplied weight unchanged, and a route query on
a negative-weight network also completes without a configuration
error. -/
theorem C9_amended :
    (∀ (w : Int), (Net.init 2 [(0, 1)] (some [w])).vweight = [w]) ∧
    (Net.init 2 [(0, 1)] (some [-1])).get_route 0 1 = some [0, 1] := by
  constructor
  · intro w
    rfl
  · rfl

/-- C7: route consumption by take_next. A successful Car.take_next
keeps the route length constant when the repeat flag recycles the
consumed hop to the tail and shrinks it by exactly one otherwise;
Passenger.take_next never grows the route and shrinks a non-empty route
by exactly one. -/
theorem C7_route_consumption :
    (∀ (c : Car) (x : Nat) (c' : Car), c.take_next = some (x, c') →
      (c.rep = true → c'.route.length = c.route.length) ∧
      (c.rep = false → c'.route.length + 1 = c.route.length)) ∧
    (∀ (p : Passenger),
      (p.take_next.2.route.length ≤ p.route.length ∧
       (p.route ≠ [] → p.take_next.2.route.length + 1 = p.route.length))) := by
  constructor
  · intro c x c' h
    cases hr : c.route with
    | nil => simp [Car.take_next, hr] at h
    | cons y ys =>
      simp only [Car.take_next, hr, Option.some.injEq, Prod.mk.injEq] at h
      obtain ⟨-, h2⟩ := h
      subst h2
      constructor
      · intro hrep; simp [hrep, hr]
      · intro hrep; simp [hrep, hr]
  · intro p
    cases hr : p.route with
    | nil => simp [Passenger.take_next, hr]
    | cons y ys => simp [Passenger.take_next, hr]

/-- Repeat-flagged car used to instantiate C7. -/
def c7car : Car :=
  { id := 0, size := 20, route := [4, 5], cur := Cur.vert 3,
    inside := [], can_move := true, rep := true }

/-- Result of Car.take_next on c7car: the consumed hop 4 recycled to
the tail. -/
def c7res : Car := { c7car with route := [5, 4] }

/-- Passenger used to instantiate C7. -/
def c7pgr : Passenger := { id := 1, route := [7, 8], cur := Cur.vert 3 }

/-- C7 witness: the repeat car keeps route length 2 and the passenger
with a two-stop route drops to length 1. -/
theorem C7_witness :
    c7res.route.length = c7car.route.length ∧
    c7pgr.take_next.2.route.length + 1 = c7pgr.route.length :=
  ⟨(C7_route_consumption.1 c7car 4 c7res (by decide)).1 rfl,
   (C7_route_consumption.2 c7pgr).2 (by decide)⟩

/-- C10: Net.move_cars never consults its unlock argument: the unlock
pass runs unconditionally, so any two unlock arguments give identical
results, and after a successful move_cars every car residing in a
vertex or edge queue is unlocked. -/
theorem C10_unlock_ignored :
    (∀ (net : Net) (u₁ u₂ : Bool), net.move_cars u₁ = net.move_cars u₂) ∧
    (∀ (net net' : Net) (u : Bool), net.move_cars u = (net', none) →
      net'.carsUnlocked = true) := by
  constructor
  · intro net u₁ u₂
    rfl
  · intro net net' u h
    unfold Net.move_cars at h
    split at h
    · exact absurd (congrArg Prod.snd h) (by simp)
    · split at h
      · exact absurd (congrArg Prod.snd h) (by simp)
      · rename_i n2 heq2
        have hn : unlockAll n2 = net' := congrArg Prod.fst h
        subst hn
        simp only [Net.carsUnlocked, unlockAll, Bool.and_eq_true, List.all_eq_true]
        constructor
        · intro q hq
          simp only [List.mem_map] at hq
          obtain ⟨q0, -, rfl⟩ := hq
          simp [List.all_eq_true]
        · intro q hq
          simp only [List.mem_map] at hq
          obtain ⟨q0, -, rfl⟩ := hq
          simp [List.all_eq_true]

/-- C10 witness: instantiating the success branch on the line network
(no cars anywhere, move succeeds trivially). -/
theorem C10_witness :
    ((lineNet.move_cars false).1).carsUnlocked = true :=
  C10_unlock_ignored.2 lineNet (lineNet.move_cars false).1 false (by decide)

lemma chcur_capCar (c : Car) (nc : Cur) (ui : Bool) :
    capCar (c.chcur nc ui) = capCar c := by
  simp [capCar, Car.chcur]

lemma take_next_capCar {c : Car} {x : Nat} {c' : Car}
    (h : c.take_next = some (x, c')) : capCar c' = capCar c := by
  cases hr : c.route with
  | nil => simp [Car.take_next, hr] at h
  | cons y ys =>
    simp only [Car.take_next, hr, Option.some.injEq, Prod.mk.injEq] at h
    obtain ⟨-, h2⟩ := h
    subst h2
    rfl

lemma pejectSplit_len_le (r : List Nat) (l : List Passenger) :
    (pejectSplit r l).1.length ≤ l.length := by
  induction l with
  | nil => simp [pejectSplit]
  | cons p rest ih =>
    simp only [pejectSplit]
    split
    · simpa using Nat.succ_le_succ ih
    · exact Nat.le_succ_of_le ih

lemma capOK_ontrack {net : Net} (h : net.capOK = true) (v : Nat) :
    carsCapOK (net.vontrack.getD v []) = true := by
  rw [Net.capOK, Bool.and_eq_true] at h
  exact p_getD_of_all _ _ _ _ h.1 rfl

lemma capOK_enroute {net : Net} (h : net.capOK = true) (e : Nat) :
    carsCapOK (net.venroute.getD e []) = true := by
  rw [Net.capOK, Bool.and_eq_true] at h
  exact p_getD_of_all _ _ _ _ h.2 rfl

lemma capOK_set_ontrack (net : Net) (v : Nat) (q : List Car)
    (h : net.capOK = true) (hq : carsCapOK q = true) :
    (Net.capOK { net with vontrack := net.vontrack.set v q }) = true := by
  rw [Net.capOK, Bool.and_eq_true] at h ⊢
  exact ⟨all_set_of_all _ _ _ _ h.1 hq, h.2⟩

lemma capOK_set_enroute (net : Net) (e : Nat) (q : List Car)
    (h : net.capOK = true) (hq : carsCapOK q = true) :
    (Net.capOK { net with venroute := net.venroute.set e q }) = true := by
  rw [Net.capOK, Bool.and_eq_true] at h ⊢
  exact ⟨h.1, all_set_of_all _ _ _ _ h.2 hq⟩

lemma boardScan_capOK (p : Passenger) (pn : Cur) :
    ∀ (l l' : List Car), carsCapOK l = true → boardScan p pn l = some l' →
    carsCapOK l' = true := by
  intro l
  induction l with
  | nil => intro l' _ h; simp [boardScan] at h
  | cons c rest ih =>
    intro l' hl h
    rw [carsCapOK, List.all_cons, Bool.and_eq_true] at hl
    simp only [boardScan] at h
    split at h
    · cases hbs : boardScan p pn rest with
      | none => rw [hbs] at h; simp at h
      | some lr =>
        rw [hbs] at h
        simp only [Option.map_some', Option.some.injEq] at h
        subst h
        rw [carsCapOK, List.all_cons, Bool.and_eq_true]
        exact ⟨hl.1, ih lr hl.2 hbs⟩
    · rename_i hfull
      split at h
      · simp only [Option.some.injEq] at h
        subst h
        rw [carsCapOK, List.all_cons, Bool.and_eq_true]
        refine ⟨?_, hl.2⟩
        have hlt : c.inside.length < c.size := Nat.lt_of_not_ge hfull
        simp only [capCar, List.length_append, List.length_singleton]
        exact decide_eq_true_eq.mpr hlt
      · cases hbs : boardScan p pn rest with
        | none => rw [hbs] at h; simp at h
        | some lr =>
          rw [hbs] at h
          simp only [Option.map_some', Option.some.injEq] at h
          subst h
          rw [carsCapOK, List.all_cons, Bool.and_eq_true]
          exact ⟨hl.1, ih lr hl.2 hbs⟩

lemma pejectLoopCars_capOK (cur : Cur) :
    ∀ (l : List Car), carsCapOK l = true →
    carsCapOK (pejectLoopCars cur l).1 = true := by
  intro l
  induction l with
  | nil => intro _; simp [pejectLoopCars, carsCapOK]
  | cons c rest ih =>
    intro h
    have h' := h
    rw [carsCapOK, List.all_cons, Bool.and_eq_true] at h'
    simp only [pejectLoopCars]
    cases hp : c.peject cur with
    | none => exact h
    | some pr =>
      rw [carsCapOK, List.all_cons, Bool.and_eq_true]
      refine ⟨?_, ih h'.2⟩
      simp only [Car.peject] at hp
      split at hp
      · simp at hp
      · simp only [Option.some.injEq] at hp
        rw [← hp]
        simp only [capCar]
        have hle : (pejectSplit c.route c.inside).1.length ≤ c.inside.length :=
          pejectSplit_len_le _ _
        have hc : c.inside.length ≤ c.size := decide_eq_true_eq.mp h'.1
        exact decide_eq_true_eq.mpr (Nat.le_trans hle hc)


lemma phase1Iter_capOK (e : Nat) :
    ∀ (k : Nat) (net : Net), net.capOK = true →
    (Net.capOK (phase1Iter e k net).1) = true := by
  intro k
  induction k with
  | zero => intro net h; exact h
  | succ k ih =>
    intro net h
    cases hq : net.venroute.getD e [] with
    | nil => simp only [phase1Iter, hq]; exact h
    | cons c rest =>
      have hall := capOK_enroute h e
      rw [hq, carsCapOK, List.all_cons, Bool.and_eq_true] at hall
      have h1 : (Net.capOK { net with venroute := net.venroute.set e rest }) = true :=
        capOK_set_enroute net e rest h hall.2
      simp only [phase1Iter, hq]
      split
      · cases hc : Car.take_next c with
        | none => simp only [hc]; exact h1
        | some pr =>
          cases pr with
          | mk nextvert c1 =>
            simp only [hc]
            apply ih
            have hq2 : carsCapOK (({ net with venroute := net.venroute.set e rest } :
                Net).vontrack.getD nextvert [] ++
                [{ c1.chcur (Cur.vert nextvert) true with can_move := false }]) = true := by
              rw [carsCapOK, List.all_append, Bool.and_eq_true]
              refine ⟨capOK_ontrack h1 nextvert, ?_⟩
              rw [List.all_cons, List.all_nil, Bool.and_true]
              have hcc : capCar { c1.chcur (Cur.vert nextvert) true with can_move := false } =
                  capCar c1 := chcur_capCar c1 (Cur.vert nextvert) true
              rw [hcc, take_next_capCar hc]
              exact hall.1
            exact capOK_set_ontrack { net with venroute := net.venroute.set e rest }
              nextvert _ h1 hq2
      · apply ih
        have hq2 : carsCapOK (rest ++ [c]) = true := by
          rw [carsCapOK, List.all_append, Bool.and_eq_true]
          refine ⟨hall.2, ?_⟩
          rw [List.all_cons, List.all_nil, Bool.and_true]
          exact hall.1
        exact capOK_set_enroute { net with venroute := net.venroute.set e rest }
          e (rest ++ [c]) h1 hq2

lemma phase1Edges_capOK :
    ∀ (es : List Nat) (net : Net), net.capOK = true →
    (Net.capOK (phase1Edges es net).1) = true := by
  intro es
  induction es with
  | nil => intro net h; exact h
  | cons e rest ih =>
    intro net h
    rw [phase1Edges]
    cases hp : phase1Iter e (net.venroute.getD e []).length net with
    | mk net' err =>
      have hcap : net'.capOK = true := by
        have hx := phase1Iter_capOK e (net.venroute.getD e []).length net h
        rwa [hp] at hx
      cases err with
      | some e0 => exact hcap
      | none => exact ih net' hcap

lemma phase2Iter_capOK (v : Nat) :
    ∀ (k : Nat) (net : Net), net.capOK = true →
    (Net.capOK (phase2Iter v k net).1) = true := by
  intro k
  induction k with
  | zero => intro net h; exact h
  | succ k ih =>
    intro net h
    cases hq : net.vontrack.getD v [] with
    | nil => simp only [phase2Iter, hq]; exact h
    | cons c rest =>
      have hall := capOK_ontrack h v
      rw [hq, carsCapOK, List.all_cons, Bool.and_eq_true] at hall
      have h1 : (Net.capOK { net with vontrack := net.vontrack.set v rest }) = true :=
        capOK_set_ontrack net v rest h hall.2
      simp only [phase2Iter, hq]
      split
      · split
        · split
          · exact ih _ h1
          · exact h1
        · cases hg : Car.get_next c with
          | vert nv =>
            simp only [hg]
            split
            · cases he : Net.edgeIdx { net with vontrack := net.vontrack.set v rest } v nv with
              | some e2 =>
                simp only [he]
                apply ih
                have hq2 : carsCapOK (({ net with vontrack := net.vontrack.set v rest } :
                    Net).venroute.getD e2 [] ++
                    [{ c.chcur (Cur.onEdge v nv) false with can_move := false }]) = true := by
                  rw [carsCapOK, List.all_append, Bool.and_eq_true]
                  refine ⟨capOK_enroute h1 e2, ?_⟩
                  rw [List.all_cons, List.all_nil, Bool.and_true]
                  have hcc : capCar { c.chcur (Cur.onEdge v nv) false with
                      can_move := false } = capCar c := chcur_capCar c (Cur.onEdge v nv) false
                  rw [hcc]
                  exact hall.1
                exact capOK_set_enroute { net with vontrack := net.vontrack.set v rest }
                  e2 _ h1 hq2
              | none => simp only [he]; exact h1
            · exact h1
          | onEdge a b => simp only [hg]; exact h1
      · apply ih
        have hq2 : carsCapOK (rest ++ [c]) = true := by
          rw [carsCapOK, List.all_append, Bool.and_eq_true]
          refine ⟨hall.2, ?_⟩
          rw [List.all_cons, List.all_nil, Bool.and_true]
          exact hall.1
        exact capOK_set_ontrack { net with vontrack := net.vontrack.set v rest }
          v (rest ++ [c]) h1 hq2

lemma phase2All_capOK :
    ∀ (vs : List Nat) (net : Net), net.capOK = true →
    (Net.capOK (phase2All vs net).1) = true := by
  intro vs
  induction vs with
  | nil => intro net h; exact h
  | cons v rest ih =>
    intro net h
    rw [phase2All]
    cases hp : phase2Iter v (net.vontrack.getD v []).length net with
    | mk net' err =>
      have hcap : net'.capOK = true := by
        have hx := phase2Iter_capOK v (net.vontrack.getD v []).length net h
        rwa [hp] at hx
      cases err with
      | some e0 => exact hcap
      | none => exact ih net' hcap

lemma unlockAll_capOK (net : Net) (h : net.capOK = true) :
    (unlockAll net).capOK = true := by
  rw [Net.capOK, Bool.and_eq_true] at h ⊢
  obtain ⟨h1, h2⟩ := h
  constructor
  · rw [unlockAll]
    simp only [List.all_eq_true, List.mem_map]
    rintro q ⟨q0, hq0, rfl⟩
    rw [carsCapOK, List.all_eq_true]
    rintro c hc
    rw [List.mem_map] at hc
    obtain ⟨c0, hc0, rfl⟩ := hc
    have hcap := List.all_eq_true.mp ((List.all_eq_true.mp h1) q0 hq0) c0 hc0
    exact hcap
  · rw [unlockAll]
    simp only [List.all_eq_true, List.mem_map]
    rintro q ⟨q0, hq0, rfl⟩
    rw [carsCapOK, List.all_eq_true]
    rintro c hc
    rw [List.mem_map] at hc
    obtain ⟨c0, hc0, rfl⟩ := hc
    have hcap := List.all_eq_true.mp ((List.all_eq_true.mp h2) q0 hq0) c0 hc0
    exact hcap

lemma move_cars_capOK (net : Net) (u : Bool) (h : net.capOK = true) :
    (Net.capOK (net.move_cars u).1) = true := by
  rw [Net.move_cars]
  split
  · rename_i n1 err hp1
    have hx : (Net.capOK (phase1 net).1) = true :=
      phase1Edges_capOK (List.range net.edges.length) net h
    rw [hp1] at hx
    exact hx
  · rename_i n1 hp1
    have hx : (Net.capOK (phase1 net).1) = true :=
      phase1Edges_capOK (List.range net.edges.length) net h
    rw [hp1] at hx
    split
    · rename_i n2 err hp2
      have hy := phase2All_capOK (List.range n1.n) n1 hx
      rw [hp2] at hy
      exact hy
    · rename_i n2 hp2
      have hy := phase2All_capOK (List.range n1.n) n1 hx
      rw [hp2] at hy
      exact unlockAll_capOK n2 hy

lemma pvertexInsideLoop_capOK (v : Nat) :
    ∀ (k : Nat) (net : Net), net.capOK = true →
    (Net.capOK (pvertexInsideLoop v k net).1) = true := by
  intro k
  induction k with
  | zero => intro net h; exact h
  | succ k ih =>
    intro net h
    cases hq : net.vinside.getD v [] with
    | nil => simp only [pvertexInsideLoop, hq]; exact h
    | cons p rest =>
      have h1 : (Net.capOK { net with vinside := net.vinside.set v rest }) = true := h
      simp only [pvertexInsideLoop, hq]
      split
      · cases hb : boardScan p p.get_next (net.vontrack.getD v []) with
        | some cars' =>
          simp only [hb]
          apply ih
          exact capOK_set_ontrack { net with vinside := net.vinside.set v rest } v cars' h1
            (boardScan_capOK p p.get_next _ cars' (capOK_ontrack h1 v) hb)
        | none =>
          simp only [hb]
          exact ih _ h1
      · split
        · exact ih _ h1
        · exact h1

lemma ptransferVertex_capOK (v : Nat) (net : Net) (h : net.capOK = true) :
    (Net.capOK (ptransferVertex v net).1) = true := by
  have hpr : carsCapOK (pejectLoopCars (Cur.vert v) (net.vontrack.getD v [])).1 = true :=
    pejectLoopCars_capOK _ _ (capOK_ontrack h v)
  have h1 : (Net.capOK { net with
      vontrack := net.vontrack.set v (pejectLoopCars (Cur.vert v) (net.vontrack.getD v [])).1 }) = true :=
    capOK_set_ontrack net v _ h hpr
  simp only [ptransferVertex]
  split
  · exact h1
  · cases hloop : pvertexInsideLoop v (net.vinside.getD v []).length { net with
        vontrack := net.vontrack.set v (pejectLoopCars (Cur.vert v) (net.vontrack.getD v [])).1 } with
    | mk net2 err =>
      have hx := pvertexInsideLoop_capOK v (net.vinside.getD v []).length { net with
        vontrack := net.vontrack.set v (pejectLoopCars (Cur.vert v) (net.vontrack.getD v [])).1 } h1
      rw [hloop] at hx
      cases err with
      | some e0 => exact hx
      | none => exact hx

lemma ptransferAll_capOK :
    ∀ (ts : List Nat) (net : Net), net.capOK = true →
    (Net.capOK (ptransferAll ts net).1) = true := by
  intro ts
  induction ts with
  | nil => intro net h; exact h
  | cons v rest ih =>
    intro net h
    rw [ptransferAll]
    cases hp : ptransferVertex v net with
    | mk net' err =>
      have hcap : net'.capOK = true := by
        have hx := ptransferVertex_capOK v net h
        rwa [hp] at hx
      cases err with
      | some e0 => exact hcap
      | none => exact ih net' hcap

lemma ptransfer_capOK (net : Net) (targets : Option (List Nat)) (h : net.capOK = true) :
    (Net.capOK (net.ptransfer targets).1) = true := by
  cases targets with
  | some ts => exact ptransferAll_capOK ts net h
  | none => exact ptransferAll_capOK (List.range net.n) net h

/-- Passenger of the C4 scenario, waiting at vertex 0 with next hop 2. -/
def capPgr : Passenger := { id := 0, route := [2], cur := Cur.vert 0 }

/-- Car of capacity 0 parked at vertex 0 (its route does contain the
passenger's next hop, so only the capacity check blocks boarding). -/
def capCarZ : Car :=
  { id := 0, size := 0, route := [2], cur := Cur.vert 0,
    inside := [], can_move := true, rep := false }

/-- Network of the C4 scenario. -/
def capNet : Net :=
  { Net.init 3 [(0, 2)] (some [1]) with
    vinside := [[capPgr], [], []], vontrack := [[capCarZ], [], []],
    allcars := [0], allpassengers := [0] }

/-- C4: a state in which every car respects its capacity still does
after a full step (movement plus transfer over all vertices), boarding
being refused when a car is full; and in the concrete scenario of a
capacity-0 car parked with one waiting passenger, transfer([0]) leaves
the passenger waiting and the car's onboard count at 0. -/
theorem C4_capacity :
    (∀ (s : Net) (u : Bool), s.capOK = true → (Net.capOK (s.step u).1) = true) ∧
    ((capNet.ptransfer (some [0])).2 = none ∧
     ((capNet.ptransfer (some [0])).1.vinside.getD 0 []).map Passenger.id = [0] ∧
     ((capNet.ptransfer (some [0])).1.vontrack.getD 0 []).map
       (fun c => c.inside.length) = [0]) := by
  constructor
  · intro s u h
    rw [Net.step]
    split
    · rename_i n1 err hm
      have hx := move_cars_capOK s u h
      rw [hm] at hx
      exact hx
    · rename_i n1 hm
      have hx := move_cars_capOK s u h
      rw [hm] at hx
      exact ptransfer_capOK n1 none hx
  · exact ⟨by decide, by decide, by decide⟩

/-- C4 witness: the preservation part instantiated on the concrete
scenario network (all hypotheses discharged by evaluation). -/
theorem C4_witness : (Net.capOK (capNet.step true).1) = true :=
  C4_capacity.1 capNet true (by decide)

/-- Reachability in the directed graph of the network. -/
def ReachN (net : Net) (a b : Nat) : Prop :=
  Relation.ReflTransGen (fun x y => (x, y) ∈ net.edges) a b

/-- Well-formed graph data: edge endpoints are valid vertex indices and
every edge carries a weight. -/
def Net.graphWF (net : Net) : Prop :=
  (∀ e ∈ net.edges, e.1 < net.n ∧ e.2 < net.n) ∧
    net.vweight.length = net.edges.length

instance (net : Net) : Decidable net.graphWF := by
  unfold Net.graphWF
  infer_instance

/-- Heads of the search-tree edges. -/
def dests (out : List (Nat × Nat)) : List Nat := out.map Prod.snd

/-- Predecessor-tree shape of a search-edge list relative to the
vertices in `seen`: every edge introduces a fresh head distinct from
the source, and its tail is the source or an earlier head. -/
def Good (src : Nat) : List (Nat × Nat) → List Nat → Prop
  | [], _ => True
  | (p, v) :: rest, seen =>
    v ∉ seen ∧ v ≠ src ∧ (p = src ∨ p ∈ seen) ∧ Good src rest (seen ++ [v])

/-- Position of the first occurrence of `x` (length of the list when
absent). -/
def rnkIn (x : Nat) : List Nat → Nat
  | [] => 0
  | y :: ys => if x = y then 0 else rnkIn x ys + 1

lemma rnkIn_le_length (x : Nat) : ∀ (l : List Nat), rnkIn x l ≤ l.length := by
  intro l
  induction l with
  | nil => simp [rnkIn]
  | cons y ys ih =>
    rw [rnkIn]
    split
    · simp
    · simpa using Nat.succ_le_succ ih

lemma rnkIn_append_lt (x : Nat) :
    ∀ (l1 l2 : List Nat), x ∈ l1 → rnkIn x (l1 ++ l2) < l1.length := by
  intro l1
  induction l1 with
  | nil => intro l2 h; simp at h
  | cons y ys ih =>
    intro l2 h
    rw [List.cons_append, rnkIn]
    split
    · simp
    · rename_i hne
      rcases List.mem_cons.mp h with h0 | h0
      · exact absurd h0 hne
      · simpa using Nat.succ_lt_succ (ih l2 h0)

lemma rnkIn_append_not_mem (x : Nat) :
    ∀ (l1 l2 : List Nat), x ∉ l1 → rnkIn x (l1 ++ l2) = l1.length + rnkIn x l2 := by
  intro l1
  induction l1 with
  | nil => intro l2 _; simp
  | cons y ys ih =>
    intro l2 h
    rw [List.cons_append, rnkIn]
    split
    · rename_i he
      exact absurd (he ▸ List.mem_cons_self y ys) h
    · rw [ih l2 (fun hx => h (List.mem_cons_of_mem y hx))]
      simp [Nat.succ_add]

lemma rnkIn_cons_self (x : Nat) (l : List Nat) : rnkIn x (x :: l) = 0 := by
  simp [rnkIn]

lemma good_dests_not_src (src : Nat) :
    ∀ (sg : List (Nat × Nat)) (seen : List Nat), Good src sg seen →
    ∀ d ∈ dests sg, d ≠ src := by
  intro sg
  induction sg with
  | nil => intro seen _ d hd; simp [dests] at hd
  | cons e rest ih =>
    intro seen hg d hd
    cases e with
    | mk q v =>
      obtain ⟨-, hv, -, hrest⟩ := hg
      rw [dests, List.map_cons, List.mem_cons] at hd
      rcases hd with h0 | h0
      · exact h0 ▸ hv
      · exact ih (seen ++ [v]) hrest d h0

lemma good_dests_disjoint (src : Nat) :
    ∀ (sg : List (Nat × Nat)) (seen : List Nat), Good src sg seen →
    ∀ d ∈ dests sg, d ∉ seen := by
  intro sg
  induction sg with
  | nil => intro seen _ d hd; simp [dests] at hd
  | cons e rest ih =>
    intro seen hg d hd
    cases e with
    | mk q v =>
      obtain ⟨hv, -, -, hrest⟩ := hg
      rw [dests, List.map_cons, List.mem_cons] at hd
      rcases hd with h0 | h0
      · exact h0 ▸ hv
      · intro hds
        exact ih (seen ++ [v]) hrest d h0 (List.mem_append_left [v] hds)

lemma walkPass_no_match :
    ∀ (sg : List (Nat × Nat)) (route : List Nat) (t : Nat) (found : Bool),
    t ∉ dests sg → walkPass sg route t found = (route, t, found) := by
  intro sg
  induction sg with
  | nil => intro route t found _; rfl
  | cons e rest ih =>
    intro route t found h
    cases e with
    | mk cs cd =>
      rw [dests, List.map_cons, List.mem_cons] at h
      push_neg at h
      rw [walkPass]
      split
      · rename_i he
        exact absurd he.symm h.1
      · exact ih route t found h.2

lemma walkPass_match (src : Nat) :
    ∀ (sg : List (Nat × Nat)) (seen L : List Nat) (route : List Nat) (t : Nat),
    Good src sg seen → L = seen ++ dests sg → t ∈ dests sg → t ∉ seen →
    ∃ p, walkPass sg route t false = (p :: route, p, true) ∧
      (p = src ∨ (p ∈ L ∧ rnkIn p L < rnkIn t L)) := by
  intro sg
  induction sg with
  | nil => intro seen L route t _ _ ht _; simp [dests] at ht
  | cons e rest ih =>
    intro seen L route t hg hL ht hts
    cases e with
    | mk q v =>
      obtain ⟨hvseen, hvsrc, hq, hrest⟩ := hg
      rw [dests, List.map_cons] at hL
      by_cases hteq : t = v
      · subst hteq
        refine ⟨q, ?_, ?_⟩
        · rw [walkPass, if_pos rfl]
          apply walkPass_no_match
          intro hqmem
          rcases hq with hq0 | hq0
          · exact good_dests_not_src src rest (seen ++ [t]) hrest q hqmem hq0
          · exact good_dests_disjoint src rest (seen ++ [t]) hrest q hqmem
              (List.mem_append_left [t] hq0)
        · rcases hq with hq0 | hq0
          · exact Or.inl hq0
          · have hL2 : L = seen ++ t :: dests rest := by rw [hL]; rfl
            refine Or.inr ⟨?_, ?_⟩
            · rw [hL2]
              exact List.mem_append_left _ hq0
            · rw [hL2]
              have h1 : rnkIn q (seen ++ t :: dests rest) < seen.length :=
                rnkIn_append_lt q seen (t :: dests rest) hq0
              have h2 : rnkIn t (seen ++ t :: dests rest) = seen.length := by
                rw [rnkIn_append_not_mem t seen (t :: dests rest) hts,
                  rnkIn_cons_self]
                omega
              rw [h2]
              exact h1
      · rw [dests, List.map_cons, List.mem_cons] at ht
        rcases ht with h0 | h0
        · exact absurd h0 hteq
        · have hres := ih (seen ++ [v]) L route t hrest
            (by rw [hL]; simp [dests]) h0
            (by
              intro hmem
              rcases List.mem_append.mp hmem with hx | hx
              · exact hts hx
              · exact hteq (List.mem_singleton.mp hx))
          obtain ⟨p, hp1, hp2⟩ := hres
          refine ⟨p, ?_, hp2⟩
          rw [walkPass]
          split
          · rename_i he
            exact absurd he.symm hteq
          · exact hp1

lemma walkLoop_fail (src : Nat) (sg : List (Nat × Nat)) (t : Nat) (rest : List Nat)
    (fuel : Nat) (ht : t ∉ dests sg) (hts : t ≠ src) :
    walkLoop src sg (fuel + 1) (t :: rest) t = none := by
  simp only [walkLoop]
  rw [if_neg hts, walkPass_no_match sg (t :: rest) t false ht]
  rfl

lemma walkLoop_reaches (src : Nat) (sg : List (Nat × Nat)) (d : Nat)
    (hg : Good src sg []) :
    ∀ (fuel : Nat) (t : Nat) (route : List Nat),
    route.head? = some t → route.getLast? = some d →
    (t = src ∨ t ∈ dests sg) →
    (if t = src then 0 else rnkIn t (dests sg) + 1) + 1 ≤ fuel →
    ∃ r, walkLoop src sg fuel route t = some r ∧
      r.head? = some src ∧ r.getLast? = some d := by
  intro fuel
  induction fuel with
  | zero =>
    intro t route _ _ _ hf
    exact absurd hf (by omega)
  | succ fuel ih =>
    intro t route hh hl htd hf
    cases route with
    | nil => simp at hh
    | cons r0 rest =>
      have hr0 : r0 = t := by simpa using hh
      subst hr0
      by_cases hts : r0 = src
      · refine ⟨r0 :: rest, ?_, ?_, hl⟩
        · simp only [walkLoop]
          rw [if_pos hts]
        · rw [List.head?_cons, hts]
      · have htd' : r0 ∈ dests sg := htd.resolve_left hts
        obtain ⟨p, hp1, hp2⟩ := walkPass_match src sg [] (dests sg) (r0 :: rest) r0 hg
          (by simp) htd' (by simp)
        have hstep : walkLoop src sg (fuel + 1) (r0 :: rest) r0 =
            walkLoop src sg fuel (p :: r0 :: rest) p := by
          simp only [walkLoop]
          rw [if_neg hts, hp1]
          rfl
        rw [hstep]
        refine ih p (p :: r0 :: rest) (by rw [List.head?_cons]) ?_ ?_ ?_
        · rw [List.getLast?_cons_cons]
          exact hl
        · rcases hp2 with h0 | h0
          · exact Or.inl h0
          · exact Or.inr h0.1
        · rw [if_neg hts] at hf
          rcases hp2 with h0 | h0
          · rw [if_pos h0]
            omega
          · rw [if_neg ?pns]
            case pns =>
              intro hps
              exact good_dests_not_src src sg [] hg p h0.1 hps
            have := h0.2
            omega

lemma getD_eq_of_lt {α : Type} (l : List α) (i : Nat) (a b : α) (h : i < l.length) :
    l.getD i a = l.getD i b := by
  rw [List.getD_eq_getElem l a h, List.getD_eq_getElem l b h]

lemma getD_set_self {α : Type} (l : List α) (i : Nat) (a d : α) (h : i < l.length) :
    (l.set i a).getD i d = a := by
  rw [List.getD_eq_getElem _ d (by simpa using h)]
  simp [List.getElem_set]

lemma getD_set_ne {α : Type} (l : List α) (i j : Nat) (a d : α) (h : i ≠ j) :
    (l.set i a).getD j d = l.getD j d := by
  rcases Nat.lt_or_ge j l.length with hj | hj
  · rw [List.getD_eq_getElem _ d (by simpa using hj), List.getD_eq_getElem _ d hj]
    simp [List.getElem_set, h]
  · rw [List.getD_eq_default _ d (by simpa using hj), List.getD_eq_default _ d hj]

lemma good_append (src : Nat) :
    ∀ (out : List (Nat × Nat)) (seen : List Nat) (p u : Nat),
    Good src out seen → u ∉ seen → u ∉ dests out → u ≠ src →
    (p = src ∨ p ∈ seen ∨ p ∈ dests out) →
    Good src (out ++ [(p, u)]) seen := by
  intro out
  induction out with
  | nil =>
    intro seen p u _ hu _ hus hp
    refine ⟨hu, hus, ?_, trivial⟩
    rcases hp with h | h | h
    · exact Or.inl h
    · exact Or.inr h
    · simp [dests] at h
  | cons e rest ih =>
    intro seen p u hg hu hud hus hp
    cases e with
    | mk q v =>
      obtain ⟨h1, h2, h3, h4⟩ := hg
      rw [dests, List.map_cons, List.mem_cons] at hud
      push_neg at hud
      refine ⟨h1, h2, h3, ?_⟩
      apply ih (seen ++ [v]) p u h4
      · intro hx
        rcases List.mem_append.mp hx with h | h
        · exact hu h
        · exact hud.1 (List.mem_singleton.mp h)
      · exact hud.2
      · exact hus
      · rcases hp with h | h | h
        · exact Or.inl h
        · exact Or.inr (Or.inl (List.mem_append_left _ h))
        · rw [dests, List.map_cons, List.mem_cons] at h
          rcases h with h | h
          · refine Or.inr (Or.inl (List.mem_append_right _ ?_))
            rw [h]
            exact List.mem_singleton_self v
          · exact Or.inr (Or.inr h)

lemma pickMinGo_mem (dist : List (Option Int)) (visited : List Bool) :
    ∀ (l : List Nat) (best : Option (Nat × Int)) (v : Nat) (d : Int),
    pickMinGo dist visited l best = some (v, d) →
    best = some (v, d) ∨
      (v ∈ l ∧ visited.getD v true = false ∧ dist.getD v none = some d) := by
  intro l
  induction l with
  | nil =>
    intro best v d h
    exact Or.inl h
  | cons w rest ih =>
    intro best v d h
    rw [pickMinGo] at h
    split at h
    · rcases ih best v d h with h0 | h0
      · exact Or.inl h0
      · exact Or.inr ⟨List.mem_cons_of_mem w h0.1, h0.2⟩
    · rename_i hvisw
      rw [Bool.not_eq_true] at hvisw
      split at h
      · rcases ih best v d h with h0 | h0
        · exact Or.inl h0
        · exact Or.inr ⟨List.mem_cons_of_mem w h0.1, h0.2⟩
      · rename_i dw hd
        split at h
        · rcases ih (some (w, dw)) v d h with h0 | h0
          · rw [Option.some.injEq, Prod.mk.injEq] at h0
            obtain ⟨h1, h2⟩ := h0
            subst h1
            subst h2
            exact Or.inr ⟨List.mem_cons_self w rest, hvisw, hd⟩
          · exact Or.inr ⟨List.mem_cons_of_mem w h0.1, h0.2⟩
        · rename_i bv bd
          split at h
          · rcases ih (some (w, dw)) v d h with h0 | h0
            · rw [Option.some.injEq, Prod.mk.injEq] at h0
              obtain ⟨h1, h2⟩ := h0
              subst h1
              subst h2
              exact Or.inr ⟨List.mem_cons_self w rest, hvisw, hd⟩
            · exact Or.inr ⟨List.mem_cons_of_mem w h0.1, h0.2⟩
          · rcases ih (some (bv, bd)) v d h with h0 | h0
            · exact Or.inl h0
            · exact Or.inr ⟨List.mem_cons_of_mem w h0.1, h0.2⟩

lemma pickMinGo_none (dist : List (Option Int)) (visited : List Bool) :
    ∀ (l : List Nat) (best : Option (Nat × Int)),
    pickMinGo dist visited l best = none →
    best = none ∧ ∀ v ∈ l, visited.getD v true = true ∨ dist.getD v none = none := by
  intro l
  induction l with
  | nil =>
    intro best h
    exact ⟨h, by intro v hv; simp at hv⟩
  | cons w rest ih =>
    intro best h
    rw [pickMinGo] at h
    split at h
    · rename_i hvisw
      obtain ⟨hb, hrest⟩ := ih best h
      refine ⟨hb, ?_⟩
      intro v hv
      rcases List.mem_cons.mp hv with h0 | h0
      · exact Or.inl (h0 ▸ hvisw)
      · exact hrest v h0
    · rename_i hvisw
      split at h
      · rename_i hd
        obtain ⟨hb, hrest⟩ := ih best h
        refine ⟨hb, ?_⟩
        intro v hv
        rcases List.mem_cons.mp hv with h0 | h0
        · exact Or.inr (h0 ▸ hd)
        · exact hrest v h0
      · rename_i dw hd
        split at h
        · obtain ⟨hb, -⟩ := ih (some (w, dw)) h
          exact absurd hb Option.noConfusion
        · split at h
          · obtain ⟨hb, -⟩ := ih (some (w, dw)) h
            exact absurd hb Option.noConfusion
          · rename_i bv bd hlt
            obtain ⟨hb, -⟩ := ih (some (bv, bd)) h
            exact absurd hb Option.noConfusion

lemma getD_replicate {α : Type} (n i : Nat) (c : α) :
    (List.replicate n c).getD i c = c := by
  rcases Nat.lt_or_ge i n with h | h
  · rw [List.getD_eq_getElem _ c (by simpa using h)]
    simp
  · exact List.getD_eq_default _ c (by simpa using h)

/-- Search-state invariant maintained by the Dijkstra loop: the emitted
edges form a predecessor tree over the visited vertices, discovered
vertices are reachable and tracked in discovery order, and the visited
region is edge-closed into the discovered region. -/
structure DInv (net : Net) (src : Nat) (st : DijkstraState) : Prop where
  hdistlen : st.dist.length = net.n
  hpredlen : st.pred.length = net.n
  hvislen : st.visited.length = net.n
  hgood : Good src st.out []
  hvis_dest : ∀ v, st.visited.getD v false = true → v = src ∨ v ∈ dests st.out
  hdest_vis : ∀ v ∈ dests st.out, st.visited.getD v false = true
  hpred_vis : ∀ v p, st.pred.getD v none = some p → st.visited.getD p false = true
  hpred_src : st.pred.getD src none = none
  hdisc_pred : ∀ v, v ≠ src → st.dist.getD v none ≠ none → st.pred.getD v none ≠ none
  hdisc_reach : ∀ v, st.dist.getD v none ≠ none → ReachN net src v
  hdorder : ∀ v ∈ st.dorder, st.dist.getD v none ≠ none ∧ v < net.n
  hdisc_dorder : ∀ v, st.dist.getD v none ≠ none → v ∈ st.dorder
  hvis_disc : ∀ v, st.visited.getD v false = true → st.dist.getD v none ≠ none
  hsrc_disc : st.dist.getD src none ≠ none
  hfirst : st.visited.getD src false = false → ∀ v, st.visited.getD v false = false

/-- The invariant together with edge-closure of the visited region;
closure is re-established only after a full relaxation pass. -/
structure DInvC (net : Net) (src : Nat) (st : DijkstraState) : Prop where
  core : DInv net src st
  hclosed : ∀ a b, (a, b) ∈ net.edges → st.visited.getD a false = true →
    st.dist.getD b none ≠ none

lemma dinv_init (net : Net) (src : Nat) (hsrc : src < net.n) :
    DInvC net src (dijkstraInit net src) := by
  have hdsrc : ((List.replicate net.n (none : Option Int)).set src
      (some 0)).getD src none = some 0 :=
    getD_set_self _ src _ none (by simpa using hsrc)
  have hdother : ∀ v, v ≠ src → ((List.replicate net.n (none : Option Int)).set src
      (some 0)).getD v none = none := by
    intro v hv
    rw [getD_set_ne _ src v _ none (fun he => hv he.symm)]
    exact getD_replicate net.n v none
  have hvis : ∀ v, (List.replicate net.n false).getD v false = false := by
    intro v
    exact getD_replicate net.n v false
  refine ⟨⟨by simp [dijkstraInit], by simp [dijkstraInit], by simp [dijkstraInit],
    trivial, ?_, ?_, ?_, ?_, ?_, ?_, ?_, ?_, ?_, ?_, ?_⟩, ?_⟩
  · intro v hv
    rw [dijkstraInit] at hv
    simp only at hv
    rw [hvis v] at hv
    exact absurd hv (by simp)
  · intro v hv
    simp [dijkstraInit, dests] at hv
  · intro v p hp
    rw [dijkstraInit] at hp
    simp only at hp
    rw [getD_replicate net.n v none] at hp
    exact absurd hp Option.noConfusion
  · rw [dijkstraInit]
    simp only
    exact getD_replicate net.n src none
  · intro v hv hd
    rw [dijkstraInit] at hd
    simp only at hd
    exact absurd (hdother v hv) hd
  · intro v hd
    rw [dijkstraInit] at hd
    simp only at hd
    by_cases hv : v = src
    · exact hv ▸ Relation.ReflTransGen.refl
    · exact absurd (hdother v hv) hd
  · intro v hv
    rw [dijkstraInit] at hv
    simp only at hv
    rw [List.mem_singleton] at hv
    subst hv
    rw [dijkstraInit]
    simp only
    exact ⟨by rw [hdsrc]; exact Option.noConfusion, hsrc⟩
  · intro v hd
    rw [dijkstraInit] at hd ⊢
    simp only at hd ⊢
    by_cases hv : v = src
    · rw [hv]; exact List.mem_singleton_self src
    · exact absurd (hdother v hv) hd
  · intro v hv
    rw [dijkstraInit] at hv
    simp only at hv
    rw [hvis v] at hv
    exact absurd hv (by simp)
  · rw [dijkstraInit]
    simp only
    rw [hdsrc]
    exact Option.noConfusion
  · intro _ v
    rw [dijkstraInit]
    simp only
    exact hvis v
  · intro a b hab hvisa
    rw [dijkstraInit] at hvisa
    simp only at hvisa
    rw [hvis a] at hvisa
    exact absurd hvisa (by simp)

lemma pickMin_spec (st : DijkstraState) (u : Nat) (h : pickMin st = some u) :
    u ∈ st.dorder ∧ st.visited.getD u true = false ∧
      ∃ d, st.dist.getD u none = some d := by
  rw [pickMin] at h
  cases hgo : pickMinGo st.dist st.visited st.dorder none with
  | none => rw [hgo] at h; exact absurd h Option.noConfusion
  | some b =>
    cases b with
    | mk v d =>
      rw [hgo] at h
      simp only [Option.map_some', Option.some.injEq] at h
      subst h
      rcases pickMinGo_mem st.dist st.visited st.dorder none v d hgo with h0 | h0
      · exact absurd h0.symm Option.noConfusion
      · exact ⟨h0.1, h0.2.1, d, h0.2.2⟩

lemma pickMin_none_spec (st : DijkstraState) (h : pickMin st = none) :
    ∀ v ∈ st.dorder, st.visited.getD v true = true ∨ st.dist.getD v none = none := by
  rw [pickMin] at h
  cases hgo : pickMinGo st.dist st.visited st.dorder none with
  | none => exact (pickMinGo_none st.dist st.visited st.dorder none hgo).2
  | some b => rw [hgo] at h; exact absurd h Option.noConfusion

lemma getD_set_cases {α : Type} (l : List α) (i v : Nat) (a d : α) :
    (l.set i a).getD v d = l.getD v d ∨ (v = i ∧ (l.set i a).getD v d = a) := by
  by_cases hv : v = i
  · subst hv
    rcases Nat.lt_or_ge v l.length with h | h
    · exact Or.inr ⟨rfl, getD_set_self l v a d h⟩
    · rw [List.set_eq_of_length_le h]
      exact Or.inl rfl
  · exact Or.inl (getD_set_ne l i v a d (fun he => hv he.symm))

lemma dinv_update (net : Net) (src u b : Nat) (dnew : Int) (st : DijkstraState)
    (inv : DInv net src st) (hvu : st.visited.getD u false = true)
    (hub : (u, b) ∈ net.edges) (hbn : b < net.n)
    (hnvb : st.visited.getD b true = false)
    (newdorder : List Nat)
    (hcase : (st.dist.getD b none = none ∧ newdorder = st.dorder ++ [b]) ∨
             (st.dist.getD b none ≠ none ∧ newdorder = st.dorder)) :
    DInv net src { st with dist := st.dist.set b (some dnew),
                           pred := st.pred.set b (some u),
                           dorder := newdorder } := by
  have hvsrc : st.visited.getD src false = true := by
    by_contra hx
    rw [Bool.not_eq_true] at hx
    exact absurd (inv.hfirst hx u ▸ hvu) (by simp)
  have hnvb' : st.visited.getD b false = false := by
    rw [getD_eq_of_lt st.visited b false true (inv.hvislen ▸ hbn)]
    exact hnvb
  have hbsrc : b ≠ src := by
    intro he
    rw [he, hvsrc] at hnvb'
    exact Bool.noConfusion hnvb'
  have hdb_new : (st.dist.set b (some dnew)).getD b none = some dnew :=
    getD_set_self st.dist b (some dnew) none (inv.hdistlen ▸ hbn)
  have hdb_ne : ∀ v, v ≠ b → (st.dist.set b (some dnew)).getD v none =
      st.dist.getD v none := fun v hv =>
    getD_set_ne st.dist b v (some dnew) none (fun he => hv he.symm)
  have hpb_new : (st.pred.set b (some u)).getD b none = some u :=
    getD_set_self st.pred b (some u) none (inv.hpredlen ▸ hbn)
  have hpb_ne : ∀ v, v ≠ b → (st.pred.set b (some u)).getD v none =
      st.pred.getD v none := fun v hv =>
    getD_set_ne st.pred b v (some u) none (fun he => hv he.symm)
  refine ⟨?_, ?_, ?_, inv.hgood, inv.hvis_dest, inv.hdest_vis, ?_, ?_, ?_, ?_,
    ?_, ?_, ?_, ?_, inv.hfirst⟩
  · simp only [List.length_set]
    exact inv.hdistlen
  · simp only [List.length_set]
    exact inv.hpredlen
  · exact inv.hvislen
  · intro v p hp
    by_cases hv : v = b
    · subst hv
      rw [hpb_new] at hp
      rw [← Option.some.injEq u p |>.mp hp]
      exact hvu
    · rw [hpb_ne v hv] at hp
      exact inv.hpred_vis v p hp
  · rw [hpb_ne src (fun he => hbsrc he.symm)]
    exact inv.hpred_src
  · intro v hv hd
    by_cases hvb : v = b
    · subst hvb
      rw [hpb_new]
      exact Option.noConfusion
    · rw [hpb_ne v hvb]
      rw [hdb_ne v hvb] at hd
      exact inv.hdisc_pred v hv hd
  · intro v hd
    by_cases hvb : v = b
    · subst hvb
      exact Relation.ReflTransGen.tail
        (inv.hdisc_reach u (inv.hvis_disc u hvu)) hub
    · rw [hdb_ne v hvb] at hd
      exact inv.hdisc_reach v hd
  · intro v hv
    rcases hcase with ⟨hnone, hdo⟩ | ⟨hsome, hdo⟩
    · rw [hdo] at hv
      rcases List.mem_append.mp hv with h0 | h0
      · obtain ⟨hd0, hlt0⟩ := inv.hdorder v h0
        have hvb : v ≠ b := by
          intro he
          rw [he, hnone] at hd0
          exact hd0 rfl
        rw [hdb_ne v hvb]
        exact ⟨hd0, hlt0⟩
      · rw [List.mem_singleton] at h0
        subst h0
        rw [hdb_new]
        exact ⟨Option.noConfusion, hbn⟩
    · rw [hdo] at hv
      obtain ⟨hd0, hlt0⟩ := inv.hdorder v hv
      by_cases hvb : v = b
      · subst hvb
        rw [hdb_new]
        exact ⟨Option.noConfusion, hlt0⟩
      · rw [hdb_ne v hvb]
        exact ⟨hd0, hlt0⟩
  · intro v hd
    rcases hcase with ⟨hnone, hdo⟩ | ⟨hsome, hdo⟩
    · rw [hdo]
      by_cases hvb : v = b
      · subst hvb
        exact List.mem_append_right _ (List.mem_singleton_self v)
      · rw [hdb_ne v hvb] at hd
        exact List.mem_append_left _ (inv.hdisc_dorder v hd)
    · rw [hdo]
      by_cases hvb : v = b
      · subst hvb
        exact inv.hdisc_dorder v hsome
      · rw [hdb_ne v hvb] at hd
        exact inv.hdisc_dorder v hd
  · intro v hv
    by_cases hvb : v = b
    · subst hvb
      rw [hdb_new]
      exact Option.noConfusion
    · rw [hdb_ne v hvb]
      exact inv.hvis_disc v hv
  · rw [hdb_ne src (fun he => hbsrc he.symm)]
    exact inv.hsrc_disc

lemma relax_visited (u : Nat) (du : Int) :
    ∀ (es : List ((Nat × Nat) × Int)) (st : DijkstraState),
    (relaxEdges u du es st).visited = st.visited := by
  intro es
  induction es with
  | nil => intro st; rfl
  | cons ew rest ih =>
    intro st
    obtain ⟨⟨a, b⟩, w⟩ := ew
    simp only [relaxEdges]
    split
    · split
      · rw [ih]
      · split
        · rw [ih]
        · rw [ih]
    · rw [ih]

lemma relax_out (u : Nat) (du : Int) :
    ∀ (es : List ((Nat × Nat) × Int)) (st : DijkstraState),
    (relaxEdges u du es st).out = st.out := by
  intro es
  induction es with
  | nil => intro st; rfl
  | cons ew rest ih =>
    intro st
    obtain ⟨⟨a, b⟩, w⟩ := ew
    simp only [relaxEdges]
    split
    · split
      · rw [ih]
      · split
        · rw [ih]
        · rw [ih]
    · rw [ih]

lemma relax_dist_mono (u : Nat) (du : Int) :
    ∀ (es : List ((Nat × Nat) × Int)) (st : DijkstraState) (v : Nat),
    st.dist.getD v none ≠ none →
    (relaxEdges u du es st).dist.getD v none ≠ none := by
  intro es
  induction es with
  | nil => intro st v h; exact h
  | cons ew rest ih =>
    intro st v h
    obtain ⟨⟨a, b⟩, w⟩ := ew
    simp only [relaxEdges]
    split
    · split
      · apply ih
        rcases getD_set_cases st.dist b v (some (du + w)) none with h0 | h0
        · rw [h0]; exact h
        · rw [h0.2]; exact Option.noConfusion
      · split
        · apply ih
          rcases getD_set_cases st.dist b v (some (du + w)) none with h0 | h0
          · rw [h0]; exact h
          · rw [h0.2]; exact Option.noConfusion
        · exact ih st v h
    · exact ih st v h

lemma relax_core (net : Net) (src u : Nat) (hwf : net.graphWF) :
    ∀ (es : List ((Nat × Nat) × Int)) (st : DijkstraState) (du : Int),
    (∀ ew ∈ es, ew.1 ∈ net.edges) →
    DInv net src st → st.visited.getD u false = true →
    DInv net src (relaxEdges u du es st) := by
  intro es
  induction es with
  | nil => intro st du _ inv _; exact inv
  | cons ew rest ih =>
    intro st du hes inv hvu
    obtain ⟨⟨a, b⟩, w⟩ := ew
    have hab : (a, b) ∈ net.edges := hes _ (List.mem_cons_self _ _)
    have hbn : b < net.n := (hwf.1 _ hab).2
    have hrest : ∀ ew ∈ rest, ew.1 ∈ net.edges :=
      fun ew hw => hes ew (List.mem_cons_of_mem _ hw)
    simp only [relaxEdges]
    split
    · rename_i hcond
      obtain ⟨ha, hnvb⟩ := hcond
      rw [ha] at hab
      split
      · rename_i hdb
        exact ih _ du hrest
          (dinv_update net src u b (du + w) st inv hvu hab hbn hnvb _
            (Or.inl ⟨hdb, rfl⟩)) hvu
      · rename_i db hdb
        split
        · exact ih _ du hrest
            (dinv_update net src u b (du + w) st inv hvu hab hbn hnvb _
              (Or.inr ⟨by rw [hdb]; exact Option.noConfusion, rfl⟩)) hvu
        · exact ih st du hrest inv hvu
    · exact ih st du hrest inv hvu

lemma relax_closure (u : Nat) (du : Int) :
    ∀ (es : List ((Nat × Nat) × Int)) (st : DijkstraState),
    (∀ v, st.visited.getD v false = true → st.dist.getD v none ≠ none) →
    (∀ ew ∈ es, ew.1.2 < st.dist.length ∧ ew.1.2 < st.visited.length) →
    ∀ a b w, ((a, b), w) ∈ es → a = u →
    (relaxEdges u du es st).dist.getD b none ≠ none := by
  intro es
  induction es with
  | nil =>
    intro st _ _ a b w hm _
    simp at hm
  | cons ew rest ih =>
    intro st hvd hlen a b w hm ha
    obtain ⟨⟨a0, b0⟩, w0⟩ := ew
    have hb0d : b0 < st.dist.length := (hlen _ (List.mem_cons_self _ _)).1
    have hb0v : b0 < st.visited.length := (hlen _ (List.mem_cons_self _ _)).2
    have hvd_upd : ∀ (x : Int) (v : Nat),
        st.visited.getD v false = true →
        (st.dist.set b0 (some x)).getD v none ≠ none := by
      intro x v hv
      rcases getD_set_cases st.dist b0 v (some x) none with hc | hc
      · rw [hc]; exact hvd v hv
      · rw [hc.2]; exact Option.noConfusion
    have hlen_upd : ∀ (x : Int), ∀ ew ∈ rest,
        ew.1.2 < (st.dist.set b0 (some x)).length ∧ ew.1.2 < st.visited.length := by
      intro x ew hw
      rw [List.length_set]
      exact hlen ew (List.mem_cons_of_mem _ hw)
    rcases List.mem_cons.mp hm with h0 | h0
    · rw [Prod.mk.injEq, Prod.mk.injEq] at h0
      obtain ⟨⟨ha0, hb0⟩, -⟩ := h0
      subst ha0
      subst hb0
      simp only [relaxEdges]
      split
      · split
        · apply relax_dist_mono
          rw [getD_set_self st.dist b (some (du + w0)) none hb0d]
          exact Option.noConfusion
        · split
          · apply relax_dist_mono
            rw [getD_set_self st.dist b (some (du + w0)) none hb0d]
            exact Option.noConfusion
          · rename_i db hdb hge
            apply relax_dist_mono
            rw [hdb]
            exact Option.noConfusion
      · rename_i hcond
        rw [Decidable.not_and_iff_or_not] at hcond
        rcases hcond with hc | hc
        · exact absurd ha hc
        · rw [Bool.not_eq_false] at hc
          apply relax_dist_mono
          apply hvd
          rw [getD_eq_of_lt st.visited b false true hb0v]
          exact hc
    · simp only [relaxEdges]
      split
      · split
        · exact ih _ (hvd_upd _) (hlen_upd _) a b w h0 ha
        · split
          · exact ih _ (hvd_upd _) (hlen_upd _) a b w h0 ha
          · exact ih st hvd (fun ew hw => hlen ew (List.mem_cons_of_mem _ hw))
              a b w h0 ha
      · exact ih st hvd (fun ew hw => hlen ew (List.mem_cons_of_mem _ hw))
          a b w h0 ha

lemma dests_append (l1 l2 : List (Nat × Nat)) :
    dests (l1 ++ l2) = dests l1 ++ dests l2 := List.map_append _ _ _

lemma dinv_visit (net : Net) (src u : Nat) (st : DijkstraState)
    (newout : List (Nat × Nat)) (inv : DInv net src st) (hun : u < net.n)
    (huv' : st.visited.getD u false = false)
    (hud : st.dist.getD u none ≠ none)
    (husrcvis : u ≠ src → st.visited.getD src false = true)
    (hout : (u = src ∧ newout = st.out) ∨
            (∃ p, u ≠ src ∧ newout = st.out ++ [(p, u)] ∧
              st.visited.getD p false = true)) :
    DInv net src { st with visited := st.visited.set u true, out := newout } := by
  have hv1u : (st.visited.set u true).getD u false = true :=
    getD_set_self st.visited u true false (inv.hvislen ▸ hun)
  have hv1ne : ∀ v, v ≠ u → (st.visited.set u true).getD v false =
      st.visited.getD v false := fun v hv =>
    getD_set_ne st.visited u v true false (fun he => hv he.symm)
  have hvmono : ∀ v, st.visited.getD v false = true →
      (st.visited.set u true).getD v false = true := by
    intro v hv
    by_cases hvu : v = u
    · subst hvu; exact hv1u
    · rw [hv1ne v hvu]; exact hv
  have hudest : u ∉ dests st.out := by
    intro hx
    rw [inv.hdest_vis u hx] at huv'
    exact Bool.noConfusion huv'
  refine ⟨inv.hdistlen, inv.hpredlen, ?_, ?_, ?_, ?_, ?_, inv.hpred_src,
    inv.hdisc_pred, inv.hdisc_reach, inv.hdorder, inv.hdisc_dorder, ?_,
    inv.hsrc_disc, ?_⟩
  · simp only [List.length_set]
    exact inv.hvislen
  · rcases hout with ⟨husrc, hne⟩ | ⟨p, husrc, hne, hpv⟩
    · rw [hne]
      exact inv.hgood
    · rw [hne]
      apply good_append src st.out [] p u inv.hgood (by simp) hudest husrc
      rcases inv.hvis_dest p hpv with h0 | h0
      · exact Or.inl h0
      · exact Or.inr (Or.inr h0)
  · intro v hv
    by_cases hvu : v = u
    · subst hvu
      rcases hout with ⟨husrc, hne⟩ | ⟨p, husrc, hne, hpv⟩
      · exact Or.inl husrc
      · rw [hne, dests_append]
        exact Or.inr (List.mem_append_right _ (List.mem_singleton_self v))
    · rw [hv1ne v hvu] at hv
      rcases inv.hvis_dest v hv with h0 | h0
      · exact Or.inl h0
      · rcases hout with ⟨husrc, hne⟩ | ⟨p, husrc, hne, hpv⟩
        · rw [hne]
          exact Or.inr h0
        · rw [hne, dests_append]
          exact Or.inr (List.mem_append_left _ h0)
  · intro v hv
    by_cases hvu : v = u
    · subst hvu
      exact hv1u
    · apply hvmono
      apply inv.hdest_vis
      rcases hout with ⟨husrc, hne⟩ | ⟨p, husrc, hne, hpv⟩
      · rw [hne] at hv
        exact hv
      · rw [hne, dests_append] at hv
        rcases List.mem_append.mp hv with h0 | h0
        · exact h0
        · simp only [dests, List.map_cons, List.map_nil, List.mem_singleton] at h0
          exact absurd h0 hvu
  · intro v p hp
    exact hvmono p (inv.hpred_vis v p hp)
  · intro v hv
    by_cases hvu : v = u
    · subst hvu
      exact hud
    · rw [hv1ne v hvu] at hv
      exact inv.hvis_disc v hv
  · intro hx v
    by_cases husrc : u = src
    · subst husrc
      rw [hv1u] at hx
      exact absurd hx (by simp)
    · rw [hv1ne src (fun he => husrc he.symm), husrcvis husrc] at hx
      exact absurd hx (by simp)

/-- State after marking `u` visited and emitting its predecessor edge
(the source has none). -/
def visitState (st : DijkstraState) (u : Nat) : DijkstraState :=
  { st with visited := st.visited.set u true,
            out := match st.pred.getD u none with
                   | some p => st.out ++ [(p, u)]
                   | none => st.out }

lemma dijkstraStep_eq (net : Net) (st : DijkstraState) (u : Nat)
    (hpm : pickMin st = some u) :
    dijkstraStep net st = some (relaxEdges u ((st.dist.getD u none).getD 0)
      (net.edges.zip net.vweight) (visitState st u)) := by
  rw [dijkstraStep, hpm]
  rfl

lemma dinv_step (net : Net) (src : Nat) (st st' : DijkstraState)
    (hwf : net.graphWF) (inv : DInvC net src st)
    (h : dijkstraStep net st = some st') : DInvC net src st' := by
  cases hpm : pickMin st with
  | none =>
    rw [dijkstraStep, hpm] at h
    exact absurd h Option.noConfusion
  | some u =>
    rw [dijkstraStep_eq net st u hpm, Option.some.injEq] at h
    obtain ⟨hudo, huv, du0, hud⟩ := pickMin_spec st u hpm
    have hun : u < net.n := (inv.core.hdorder u hudo).2
    have huv' : st.visited.getD u false = false := by
      rw [getD_eq_of_lt st.visited u false true (inv.core.hvislen ▸ hun)]
      exact huv
    have hud' : st.dist.getD u none ≠ none := by
      rw [hud]; exact Option.noConfusion
    have hzip : ∀ ew ∈ net.edges.zip net.vweight, ew.1 ∈ net.edges := by
      intro ew hw
      exact (List.mem_zip hw).1
    have hinv1 : DInv net src (visitState st u) := by
      cases hpu : st.pred.getD u none with
      | none =>
        have husrc : u = src := by
          by_contra hx
          exact (inv.core.hdisc_pred u hx hud') hpu
        have hv : visitState st u =
            { st with visited := st.visited.set u true, out := st.out } := by
          rw [visitState, hpu]
        rw [hv]
        exact dinv_visit net src u st st.out inv.core hun huv' hud'
          (fun hx => absurd husrc hx) (Or.inl ⟨husrc, rfl⟩)
      | some p =>
        have hpvis : st.visited.getD p false = true := inv.core.hpred_vis u p hpu
        have husrc : u ≠ src := by
          intro he
          rw [he, inv.core.hpred_src] at hpu
          exact Option.noConfusion hpu
        have hsrcvis : st.visited.getD src false = true := by
          by_contra hx
          rw [Bool.not_eq_true] at hx
          rw [inv.core.hfirst hx p] at hpvis
          exact Bool.noConfusion hpvis
        have hv : visitState st u =
            { st with visited := st.visited.set u true, out := st.out ++ [(p, u)] } := by
          rw [visitState, hpu]
        rw [hv]
        exact dinv_visit net src u st (st.out ++ [(p, u)]) inv.core hun huv' hud'
          (fun _ => hsrcvis) (Or.inr ⟨p, husrc, rfl, hpvis⟩)
    have hvs_dist : (visitState st u).dist = st.dist := rfl
    have hvs_vis : (visitState st u).visited = st.visited.set u true := rfl
    have hv1u : (visitState st u).visited.getD u false = true := by
      rw [hvs_vis]
      exact getD_set_self st.visited u true false (inv.core.hvislen ▸ hun)
    subst h
    refine ⟨relax_core net src u hwf _ _ _ hzip hinv1 hv1u, ?_⟩
    intro a b hab hvisa
    rw [relax_visited] at hvisa
    by_cases hau : a = u
    · subst hau
      have hbzip : ∃ w, ((a, b), w) ∈ net.edges.zip net.vweight := by
        obtain ⟨i, hi, hget⟩ := List.mem_iff_getElem.mp hab
        refine ⟨net.vweight.get ⟨i, by rw [← hwf.2] at hi; exact hi⟩, ?_⟩
        apply List.mem_iff_getElem.mpr
        refine ⟨i, by rw [List.length_zip, hwf.2]; simpa using hi, ?_⟩
        rw [List.getElem_zip]
        rw [hget]
        rfl
      obtain ⟨w, hw⟩ := hbzip
      apply relax_closure a ((st.dist.getD a none).getD 0)
        (net.edges.zip net.vweight) (visitState st a) hinv1.hvis_disc ?hlens
        a b w hw rfl
      case hlens =>
        intro ew hwm
        have he : ew.1 ∈ net.edges := (List.mem_zip hwm).1
        have hlt : ew.1.2 < net.n := (hwf.1 _ he).2
        constructor
        · rw [hvs_dist, inv.core.hdistlen]
          exact hlt
        · rw [hvs_vis, List.length_set, inv.core.hvislen]
          exact hlt
    · apply relax_dist_mono
      have hva : st.visited.getD a false = true := by
        rw [hvs_vis] at hvisa
        rw [getD_set_ne st.visited u a true false (fun he => hau he.symm)] at hvisa
        exact hvisa
      rw [hvs_dist]
      exact inv.hclosed a b hab hva

/-- Number of unvisited vertices. -/
def unvisCount (net : Net) (st : DijkstraState) : Nat :=
  (List.range net.n).countP (fun v => ! st.visited.getD v false)

lemma countP_update_le (u : Nat) (f g : Nat → Bool)
    (hfu : f u = true) (hgu : g u = false)
    (hfg : ∀ v, v ≠ u → g v = f v) :
    ∀ (l : List Nat), l.Nodup → u ∈ l → l.countP g + 1 ≤ l.countP f := by
  intro l
  induction l with
  | nil => intro _ hu; cases hu
  | cons a t ih =>
    intro hl hu
    rw [List.countP_cons, List.countP_cons]
    rcases List.mem_cons.mp hu with h0 | h0
    · rw [← h0, hgu, hfu]
      have ht : t.countP g ≤ t.countP f := by
        apply List.countP_mono_left
        intro v hv hg
        have hvu : v ≠ u := by
          intro he
          exact (List.nodup_cons.mp hl).1 (h0 ▸ he ▸ hv)
        rw [← hfg v hvu]
        exact hg
      simp only [Bool.false_eq_true, if_false, if_true]
      omega
    · have ha : a ≠ u := fun he => (List.nodup_cons.mp hl).1 (he ▸ h0)
      rw [hfg a ha]
      have := ih (List.nodup_cons.mp hl).2 h0
      omega

lemma unvis_decrease (net : Net) (vis : List Bool) (u : Nat)
    (hun : u < net.n) (huv : vis.getD u false = false)
    (hlen : vis.length = net.n) :
    (List.range net.n).countP (fun v => ! (vis.set u true).getD v false) + 1 ≤
    (List.range net.n).countP (fun v => ! vis.getD v false) := by
  apply countP_update_le u
  · rw [huv]; rfl
  · rw [getD_set_self vis u true false (hlen ▸ hun)]; rfl
  · intro v hv
    rw [getD_set_ne vis u v true false (fun he => hv he.symm)]
  · exact List.nodup_range net.n
  · exact List.mem_range.mpr hun

lemma loop_done (net : Net) (src : Nat) (hwf : net.graphWF) :
    ∀ (fuel : Nat) (st : DijkstraState), DInvC net src st →
    unvisCount net st ≤ fuel →
    pickMin (dijkstraLoop net fuel st) = none ∧
      DInvC net src (dijkstraLoop net fuel st) := by
  intro fuel
  induction fuel with
  | zero =>
    intro st inv hc
    rw [dijkstraLoop]
    refine ⟨?_, inv⟩
    cases hpm : pickMin st with
    | none => rfl
    | some u =>
      obtain ⟨hudo, huv, -⟩ := pickMin_spec st u hpm
      have hun : u < net.n := (inv.core.hdorder u hudo).2
      have huv' : st.visited.getD u false = false := by
        rw [getD_eq_of_lt st.visited u false true (inv.core.hvislen ▸ hun)]
        exact huv
      have hpos : 0 < (List.range net.n).countP
          (fun v => ! st.visited.getD v false) := by
        apply List.countP_pos.mpr
        exact ⟨u, List.mem_range.mpr hun, by rw [huv']; rfl⟩
      rw [unvisCount] at hc
      omega
  | succ fuel ih =>
    intro st inv hc
    rw [dijkstraLoop]
    cases hstep : dijkstraStep net st with
    | none =>
      have hpm : pickMin st = none := by
        cases hpm2 : pickMin st with
        | none => rfl
        | some u =>
          rw [dijkstraStep_eq net st u hpm2] at hstep
          exact absurd hstep Option.noConfusion
      exact ⟨hpm, inv⟩
    | some st1 =>
      have inv1 := dinv_step net src st st1 hwf inv hstep
      apply ih st1 inv1
      cases hpm : pickMin st with
      | none =>
        rw [dijkstraStep, hpm] at hstep
        exact absurd hstep Option.noConfusion
      | some u =>
        rw [dijkstraStep_eq net st u hpm, Option.some.injEq] at hstep
        obtain ⟨hudo, huv, -⟩ := pickMin_spec st u hpm
        have hun : u < net.n := (inv.core.hdorder u hudo).2
        have huv' : st.visited.getD u false = false := by
          rw [getD_eq_of_lt st.visited u false true (inv.core.hvislen ▸ hun)]
          exact huv
        have hvis1 : st1.visited = st.visited.set u true := by
          rw [← hstep, relax_visited]
          rfl
        have hdec := unvis_decrease net st.visited u hun huv' inv.core.hvislen
        rw [unvisCount] at hc ⊢
        rw [hvis1]
        omega

lemma dijkstra_final (net : Net) (src : Nat) (hwf : net.graphWF)
    (hsrc : src < net.n) :
    DInvC net src (dijkstraLoop net net.n (dijkstraInit net src)) ∧
    pickMin (dijkstraLoop net net.n (dijkstraInit net src)) = none := by
  have h0 := dinv_init net src hsrc
  have hc : unvisCount net (dijkstraInit net src) ≤ net.n := by
    rw [unvisCount]
    calc (List.range net.n).countP _ ≤ (List.range net.n).length :=
      List.countP_le_length _
    _ = net.n := List.length_range _
  obtain ⟨hpm, hinv⟩ := loop_done net src hwf net.n _ h0 hc
  exact ⟨hinv, hpm⟩

lemma visited_of_reach (net : Net) (src : Nat) (st : DijkstraState)
    (inv : DInvC net src st) (hpm : pickMin st = none) :
    ∀ v, ReachN net src v → st.visited.getD v false = true := by
  intro v hr
  induction hr with
  | refl =>
    have hdo : src ∈ st.dorder := inv.core.hdisc_dorder src inv.core.hsrc_disc
    have hsn : src < net.n := (inv.core.hdorder src hdo).2
    rcases pickMin_none_spec st hpm src hdo with h0 | h0
    · rw [getD_eq_of_lt st.visited src false true (inv.core.hvislen ▸ hsn)]
      exact h0
    · exact absurd h0 inv.core.hsrc_disc
  | tail hab hbc ih =>
    rename_i b c
    have hdc : st.dist.getD c none ≠ none := inv.hclosed b c hbc ih
    have hdo : c ∈ st.dorder := inv.core.hdisc_dorder c hdc
    have hcn : c < net.n := (inv.core.hdorder c hdo).2
    rcases pickMin_none_spec st hpm c hdo with h0 | h0
    · rw [getD_eq_of_lt st.visited c false true (inv.core.hvislen ▸ hcn)]
      exact h0
    · exact absurd h0 hdc

lemma dijkstraEdges_good (net : Net) (src : Nat) (hwf : net.graphWF)
    (hsrc : src < net.n) : Good src (dijkstraEdges net src) [] :=
  (dijkstra_final net src hwf hsrc).1.core.hgood

lemma dijkstraEdges_dest_reach (net : Net) (src : Nat) (hwf : net.graphWF)
    (hsrc : src < net.n) :
    ∀ d ∈ dests (dijkstraEdges net src), ReachN net src d := by
  intro d hd
  have inv := (dijkstra_final net src hwf hsrc).1.core
  exact inv.hdisc_reach d (inv.hvis_disc d (inv.hdest_vis d hd))

lemma dijkstraEdges_reach_dest (net : Net) (src : Nat) (hwf : net.graphWF)
    (hsrc : src < net.n) :
    ∀ v, ReachN net src v → v = src ∨ v ∈ dests (dijkstraEdges net src) := by
  intro v hr
  obtain ⟨hinv, hpm⟩ := dijkstra_final net src hwf hsrc
  exact hinv.core.hvis_dest v (visited_of_reach net src _ hinv hpm v hr)

/-- Repeated take-next-hop: consume the route with Car.take_next,
remembering the last vertex taken (starting from `acc`). -/
def takeAllFrom : Nat → Car → Cur → Cur
  | 0, _, acc => acc
  | f + 1, c, acc =>
    match c.take_next with
    | none => acc
    | some pr => takeAllFrom f pr.2 (Cur.vert pr.1)

/-- Where a car ends up after consuming every hop of its route via
repeated Car.take_next. -/
def carFinalStop (c : Car) : Cur := takeAllFrom c.route.length c c.cur

lemma takeAllFrom_norep :
    ∀ (l : List Nat) (c : Car) (acc : Cur), c.route = l → c.rep = false →
    takeAllFrom l.length c acc =
      (match l.getLast? with
       | none => acc
       | some x => Cur.vert x) := by
  intro l
  induction l with
  | nil => intro c acc _ _; rfl
  | cons x xs ih =>
    intro c acc hr hrep
    have hstep : c.take_next = some (x, { c with route := xs }) := by
      simp [Car.take_next, hr, hrep]
    have hred : takeAllFrom (x :: xs).length c acc =
        takeAllFrom xs.length { c with route := xs } (Cur.vert x) := by
      rw [show (x :: xs).length = xs.length + 1 from rfl, takeAllFrom, hstep]
    rw [hred, ih { c with route := xs } (Cur.vert x) rfl hrep]
    cases hxs : xs with
    | nil => rfl
    | cons z zs =>
      rw [List.getLast?_cons_cons]
      cases h2 : (z :: zs).getLast? with
      | none => exact absurd h2 (by simp)
      | some y => rfl


/-- C8: the route query fails with the route-not-found error exactly
when the destination is unreachable from the source in the directed
graph; when a path exists the route is returned without error. -/
theorem C8_route_not_found_iff :
    ∀ (net : Net) (src dst : Nat), net.graphWF → src < net.n → dst < net.n →
    (net.get_route src dst = none ↔ ¬ ReachN net src dst) := by
  intro net src dst hwf hsrc hdst
  have hgr : net.get_route src dst =
      walkLoop src (dijkstraEdges net src)
        ((dijkstraEdges net src).length + 2) [dst] dst := rfl
  have hg := dijkstraEdges_good net src hwf hsrc
  constructor
  · intro hnone hr
    have htd : dst = src ∨ dst ∈ dests (dijkstraEdges net src) :=
      dijkstraEdges_reach_dest net src hwf hsrc dst hr
    have hfuel : (if dst = src then 0
        else rnkIn dst (dests (dijkstraEdges net src)) + 1) + 1 ≤
        (dijkstraEdges net src).length + 2 := by
      split
      · omega
      · have h1 := rnkIn_le_length dst (dests (dijkstraEdges net src))
        have h2 : (dests (dijkstraEdges net src)).length =
            (dijkstraEdges net src).length := List.length_map _ _
        omega
    obtain ⟨r, hwk, -, -⟩ := walkLoop_reaches src (dijkstraEdges net src) dst hg
      ((dijkstraEdges net src).length + 2) dst [dst] rfl rfl htd hfuel
    rw [hgr, hwk] at hnone
    exact Option.noConfusion hnone
  · intro hnr
    have hns : dst ≠ src := fun he => hnr (he ▸ Relation.ReflTransGen.refl)
    have hnd : dst ∉ dests (dijkstraEdges net src) := fun hx =>
      hnr (dijkstraEdges_dest_reach net src hwf hsrc dst hx)
    rw [hgr]
    exact walkLoop_fail src (dijkstraEdges net src) dst []
      ((dijkstraEdges net src).length + 1) hnd hns

/-- C8 witness: on the line network, vertex 2 is reachable from 0, and
the equivalence instantiates to a route being returned. -/
theorem C8_witness :
    lineNet.get_route 0 2 = none ↔ ¬ ReachN lineNet 0 2 :=
  C8_route_not_found_iff lineNet 0 2 (by decide) (by decide) (by decide)

/-- C5: whenever a path exists, get_route returns an ordered vertex
sequence from the source to the destination inclusive, and consuming
every hop of that sequence through a car built from it by repeated
Car.take_next terminates exactly at the destination. -/
theorem C5_route_roundtrip :
    ∀ (net : Net) (src dst : Nat), net.graphWF → src < net.n → dst < net.n →
    ReachN net src dst →
    ∃ r, net.get_route src dst = some r ∧ r.head? = some src ∧
      r.getLast? = some dst ∧
      ∃ car, Car.mkFromRoute 0 r = some car ∧ carFinalStop car = Cur.vert dst := by
  intro net src dst hwf hsrc hdst hr
  have hgr : net.get_route src dst =
      walkLoop src (dijkstraEdges net src)
        ((dijkstraEdges net src).length + 2) [dst] dst := rfl
  have hg := dijkstraEdges_good net src hwf hsrc
  have htd : dst = src ∨ dst ∈ dests (dijkstraEdges net src) :=
    dijkstraEdges_reach_dest net src hwf hsrc dst hr
  have hfuel : (if dst = src then 0
      else rnkIn dst (dests (dijkstraEdges net src)) + 1) + 1 ≤
      (dijkstraEdges net src).length + 2 := by
    split
    · omega
    · have h1 := rnkIn_le_length dst (dests (dijkstraEdges net src))
      have h2 : (dests (dijkstraEdges net src)).length =
          (dijkstraEdges net src).length := List.length_map _ _
      omega
  obtain ⟨r, hwk, hh, hl⟩ := walkLoop_reaches src (dijkstraEdges net src) dst hg
    ((dijkstraEdges net src).length + 2) dst [dst] rfl rfl htd hfuel
  refine ⟨r, by rw [hgr, hwk], hh, hl, ?_⟩
  cases r with
  | nil => simp at hh
  | cons r0 rest =>
    have hr0 : r0 = src := by simpa using hh
    refine ⟨_, rfl, ?_⟩
    rw [carFinalStop]
    rw [takeAllFrom_norep rest _ _ rfl rfl]
    cases hrest : rest.getLast? with
    | none =>
      have hre : rest = [] := by
        cases rest with
        | nil => rfl
        | cons z zs => exact absurd hrest (by simp)
      subst hre
      have : r0 = dst := by simpa using hl
      rw [this]
    | some x =>
      cases rest with
      | nil => exact absurd hrest (by simp)
      | cons y ys =>
        rw [List.getLast?_cons_cons] at hl
        rw [hl] at hrest
        have : x = dst := by simpa using hrest.symm
        rw [this]

/-- C5 witness: instantiation on the line network with the concrete
path 0 to 2. -/
theorem C5_witness :
    ∃ r, lineNet.get_route 0 2 = some r ∧ r.head? = some 0 ∧
      r.getLast? = some 2 ∧
      ∃ car, Car.mkFromRoute 0 r = some car ∧ carFinalStop car = Cur.vert 2 :=
  C5_route_roundtrip lineNet 0 2 (by decide) (by decide) (by decide)
    (Relation.ReflTransGen.tail
      (Relation.ReflTransGen.single (show (0, 1) ∈ lineNet.edges by decide))
      (show (1, 2) ∈ lineNet.edges by decide))

/-! ### C6: per-tick atomicity of car movement -/

/-- Phase 1 adds only locked cars to the vertex queues: a car found in a
vertex queue after `phase1Iter` either was already there or carries a
cleared movement lock. -/
lemma phase1Iter_vontrack_locked (e : Nat) :
    ∀ (k : Nat) (net : Net) (v : Nat) (c : Car),
    c ∈ (phase1Iter e k net).1.vontrack.getD v [] →
    c ∈ net.vontrack.getD v [] ∨ c.can_move = false := by
  intro k
  induction k with
  | zero =>
    intro net v c h
    exact Or.inl h
  | succ k ih =>
    intro net v c h
    rcases hq : net.venroute.getD e [] with _ | ⟨c0, rest⟩
    · simp only [phase1Iter, hq] at h
      exact Or.inl h
    · simp only [phase1Iter, hq] at h
      rcases hcm : c0.can_move with _ | _
      · simp only [hcm, Bool.false_eq_true, if_false] at h
        rcases ih _ _ _ h with h1 | h1
        · exact Or.inl h1
        · exact Or.inr h1
      · simp only [hcm, if_true] at h
        rcases htn : c0.take_next with _ | ⟨nv, c1⟩
        · simp only [htn] at h
          exact Or.inl h
        · simp only [htn] at h
          rcases ih _ _ _ h with h1 | h1
          · rcases getD_set_cases net.vontrack nv v
              ((net.vontrack.getD nv []) ++
                [{ c1.chcur (Cur.vert nv) true with can_move := false }]) [] with hc | ⟨hv, hc⟩
            · rw [hc] at h1
              exact Or.inl h1
            · rw [hc] at h1
              rcases List.mem_append.mp h1 with h2 | h2
              · subst hv
                exact Or.inl h2
              · have : c = { c1.chcur (Cur.vert nv) true with can_move := false } := by
                  simpa using h2
                rw [this]
                exact Or.inr rfl
          · exact Or.inr h1

/-- Phase 1 over a list of edges adds only locked cars to the vertex
queues. -/
lemma phase1Edges_vontrack_locked :
    ∀ (es : List Nat) (net : Net) (v : Nat) (c : Car),
    c ∈ (phase1Edges es net).1.vontrack.getD v [] →
    c ∈ net.vontrack.getD v [] ∨ c.can_move = false := by
  intro es
  induction es with
  | nil =>
    intro net v c h
    exact Or.inl h
  | cons e rest ih =>
    intro net v c h
    simp only [phase1Edges] at h
    rcases hres : phase1Iter e (net.venroute.getD e []).length net with ⟨net1, err⟩
    rw [hres] at h
    cases err with
    | none =>
      rcases ih _ _ _ h with h1 | h1
      · have h2 : c ∈ (phase1Iter e (net.venroute.getD e []).length net).1.vontrack.getD v [] := by
          rw [hres]
          exact h1
        exact phase1Iter_vontrack_locked e _ net v c h2
      · exact Or.inr h1
    | some err =>
      have h2 : c ∈ (phase1Iter e (net.venroute.getD e []).length net).1.vontrack.getD v [] := by
        rw [hres]
        exact h
      exact phase1Iter_vontrack_locked e _ net v c h2

/-- Phase 2 never moves a locked car: a car with a cleared movement lock
sitting in any vertex queue is still in the same vertex queue after
`phase2Iter` (appended back by the driver rather than moved onto an
edge). -/
lemma phase2Iter_locked_kept (w : Nat) :
    ∀ (k : Nat) (net : Net) (v : Nat) (c : Car),
    c.can_move = false → c ∈ net.vontrack.getD v [] →
    c ∈ (phase2Iter w k net).1.vontrack.getD v [] := by
  intro k
  induction k with
  | zero =>
    intro net v c _ h
    exact h
  | succ k ih =>
    intro net v c hlk h
    rcases hq : net.vontrack.getD w [] with _ | ⟨c0, rest⟩
    · simp only [phase2Iter, hq]
      exact h
    · have hw : w < net.vontrack.length := by
        by_contra hge
        rw [List.getD_eq_default _ _ (Nat.le_of_not_lt hge)] at hq
        exact List.noConfusion hq
      have hmem : c ∈ (net.vontrack.set w rest).getD v [] ∨ (v = w ∧ c = c0) := by
        rcases getD_set_cases net.vontrack w v rest [] with hc | ⟨hv, hc⟩
        · rw [hc]
          exact Or.inl h
        · subst hv
          rw [hq] at h
          rcases List.mem_cons.mp h with h1 | h1
          · exact Or.inr ⟨rfl, h1⟩
          · rw [hc]
            exact Or.inl h1
      simp only [phase2Iter, hq]
      rcases hcm : c0.can_move with _ | _
      · -- locked head: appended back
        simp only [hcm, Bool.false_eq_true, if_false]
        refine ih _ _ _ hlk ?_
        -- membership in the re-queued list
        rcases hmem with h1 | ⟨hv, hc⟩
        · by_cases hvw : v = w
          · subst hvw
            rw [getD_set_self _ _ _ _ hw] at h1
            rw [List.set_set, getD_set_self _ _ _ _ hw]
            exact List.mem_append_left _ h1
          · rw [getD_set_ne _ _ _ _ _ (fun he => hvw he.symm)] at h1
            rw [List.set_set, getD_set_ne _ _ _ _ _ (fun he => hvw he.symm)]
            exact h1
        · subst hv
          subst hc
          rw [List.set_set, getD_set_self _ _ _ _ hw]
          exact List.mem_append_right _ (List.mem_singleton.mpr rfl)
      · -- movable head: c cannot be the head
        have hne : ¬(v = w ∧ c = c0) := by
          rintro ⟨_, rfl⟩
          rw [hlk] at hcm
          exact Bool.noConfusion hcm
        have hm2 : c ∈ (net.vontrack.set w rest).getD v [] := hmem.resolve_right hne
        simp only [hcm, if_true]
        split
        · -- destination reached, registered: car erased from allcars
          split
          · exact ih _ _ _ hlk hm2
          · exact hm2
        · -- next-hop branches
          split
          · split
            · split
              · exact ih _ _ _ hlk hm2
              · exact hm2
            · exact hm2
          · exact hm2

/-- Phase 2 only appends to the edge queues: any car in an edge queue
before `phase2Iter` is still there afterwards. -/
lemma phase2Iter_venroute_grows (w : Nat) :
    ∀ (k : Nat) (net : Net) (e : Nat) (c : Car),
    c ∈ net.venroute.getD e [] →
    c ∈ (phase2Iter w k net).1.venroute.getD e [] := by
  intro k
  induction k with
  | zero =>
    intro net e c h
    exact h
  | succ k ih =>
    intro net e c h
    rcases hq : net.vontrack.getD w [] with _ | ⟨c0, rest⟩
    · simp only [phase2Iter, hq]
      exact h
    · simp only [phase2Iter, hq]
      rcases hcm : c0.can_move with _ | _
      · simp only [hcm, Bool.false_eq_true, if_false]
        exact ih _ _ _ h
      · simp only [hcm, if_true]
        split
        · split
          · exact ih _ _ _ h
          · exact h
        · split
          · split
            · split
              · -- the moved car is appended to an edge queue
                apply ih
                rename_i e' he'
                rcases getD_set_cases net.venroute e' e
                  ((net.venroute.getD e' []) ++
                    [{ c0.chcur (Cur.onEdge w _) false with can_move := false }]) [] with hc | ⟨hv, hc⟩
                · rw [hc]
                  exact h
                · rw [hc]
                  subst hv
                  exact List.mem_append_left _ h
              · exact h
            · exact h
          · exact h

/-- Phase 2 over a list of vertices never moves a locked car out of its
vertex queue. -/
lemma phase2All_locked_kept :
    ∀ (vs : List Nat) (net : Net) (v : Nat) (c : Car),
    c.can_move = false → c ∈ net.vontrack.getD v [] →
    c ∈ (phase2All vs net).1.vontrack.getD v [] := by
  intro vs
  induction vs with
  | nil =>
    intro net v c _ h
    exact h
  | cons w rest ih =>
    intro net v c hlk h
    simp only [phase2All]
    rcases hres : phase2Iter w (net.vontrack.getD w []).length net with ⟨net1, err⟩
    have hstep := phase2Iter_locked_kept w (net.vontrack.getD w []).length net v c hlk h
    rw [hres] at hstep
    cases err with
    | none => exact ih _ _ _ hlk hstep
    | some e => exact hstep

/-- Phase 2 over a list of vertices only appends to the edge queues. -/
lemma phase2All_venroute_grows :
    ∀ (vs : List Nat) (net : Net) (e : Nat) (c : Car),
    c ∈ net.venroute.getD e [] →
    c ∈ (phase2All vs net).1.venroute.getD e [] := by
  intro vs
  induction vs with
  | nil =>
    intro net e c h
    exact h
  | cons w rest ih =>
    intro net e c h
    simp only [phase2All]
    rcases hres : phase2Iter w (net.vontrack.getD w []).length net with ⟨net1, err⟩
    have hstep := phase2Iter_venroute_grows w (net.vontrack.getD w []).length net e c h
    rw [hres] at hstep
    cases err with
    | none => exact ih _ _ _ hstep
    | some e' => exact hstep

/-- `getD` of an index-wise mapped list of queues. -/
lemma getD_map_queues {α : Type} (g : α → α) :
    ∀ (l : List (List α)) (i : Nat),
    (l.map (fun q => q.map g)).getD i [] = (l.getD i []).map g := by
  intro l
  induction l with
  | nil =>
    intro i
    rfl
  | cons q t ih =>
    intro i
    cases i with
    | zero => rfl
    | succ i => exact ih i

/-- The unlock pass keeps every car in place: it changes only the
`can_move` flag, so the ids and positions in each edge queue are
unchanged. -/
lemma unlockAll_venroute_ids (net : Net) (e : Nat) :
    ((unlockAll net).venroute.getD e []).map (fun d => (d.id, d.cur)) =
    (net.venroute.getD e []).map (fun d => (d.id, d.cur)) := by
  show ((net.venroute.map (fun q => q.map (fun c => { c with can_move := true }))).getD e []).map
      (fun d => (d.id, d.cur)) = _
  rw [getD_map_queues]
  rw [List.map_map]
  rfl

/-- C6: one `move_cars` tick moves every car at most once.  On a
successful tick, every car that phase 1 placed in a vertex queue
carries a cleared movement lock (it was either already parked there or
was locked on arrival); a locked car in a vertex queue is still in the
same vertex queue after phase 2, so a car moved edge-to-vertex in
phase 1 is not moved vertex-to-edge in the same tick; phase 2 only
appends to the edge queues; and a car sitting in an edge queue when
phase 2 ends is still in that edge queue (same id and position) in the
final state produced by the closing unlock pass. -/
theorem C6_no_double_movement (net net' : Net) (u : Bool)
    (hrun : net.move_cars u = (net', none)) :
    ∃ n1 n2, phase1 net = (n1, none) ∧
      phase2All (List.range n1.n) n1 = (n2, none) ∧ net' = unlockAll n2 ∧
      (∀ v c, c ∈ n1.vontrack.getD v [] →
        c ∈ net.vontrack.getD v [] ∨ c.can_move = false) ∧
      (∀ v c, c ∈ n1.vontrack.getD v [] → c.can_move = false →
        c ∈ n2.vontrack.getD v []) ∧
      (∀ e c, c ∈ n1.venroute.getD e [] → c ∈ n2.venroute.getD e []) ∧
      (∀ e c, c ∈ n2.venroute.getD e [] →
        (c.id, c.cur) ∈ (net'.venroute.getD e []).map (fun d => (d.id, d.cur))) := by
  rw [Net.move_cars] at hrun
  rcases h1 : phase1 net with ⟨n1, e1⟩
  cases e1 with
  | some e =>
    rw [h1] at hrun
    simp at hrun
  | none =>
    rw [h1] at hrun
    rcases h2 : phase2All (List.range n1.n) n1 with ⟨n2, e2⟩
    cases e2 with
    | some e =>
      simp only [h2] at hrun
      simp at hrun
    | none =>
      simp only [h2] at hrun
      have hnet' : net' = unlockAll n2 := by
        have hfst := congrArg Prod.fst hrun
        exact hfst.symm
      refine ⟨n1, n2, ?_, h2, hnet', ?_, ?_, ?_, ?_⟩
      · rfl
      · intro v c hc
        have hc' : c ∈ (phase1Edges (List.range net.edges.length) net).1.vontrack.getD v [] := by
          show c ∈ (phase1 net).1.vontrack.getD v []
          rw [h1]
          exact hc
        exact phase1Edges_vontrack_locked _ net v c hc'
      · intro v c hc hlk
        have := phase2All_locked_kept (List.range n1.n) n1 v c hlk hc
        rw [h2] at this
        exact this
      · intro e c hc
        have := phase2All_venroute_grows (List.range n1.n) n1 e c hc
        rw [h2] at this
        exact this
      · intro e c hc
        rw [hnet', unlockAll_venroute_ids]
        exact List.mem_map_of_mem _ hc

/-- C6 witness: the tick that moves the spawned car of the line network
onto its first edge. -/
theorem C6_witness :
    ∃ n1 n2, phase1 c3start = (n1, none) ∧
      phase2All (List.range n1.n) n1 = (n2, none) ∧
      (c3start.move_cars true).1 = unlockAll n2 ∧
      (∀ v c, c ∈ n1.vontrack.getD v [] →
        c ∈ c3start.vontrack.getD v [] ∨ c.can_move = false) ∧
      (∀ v c, c ∈ n1.vontrack.getD v [] → c.can_move = false →
        c ∈ n2.vontrack.getD v []) ∧
      (∀ e c, c ∈ n1.venroute.getD e [] → c ∈ n2.venroute.getD e []) ∧
      (∀ e c, c ∈ n2.venroute.getD e [] →
        (c.id, c.cur) ∈ (((c3start.move_cars true).1).venroute.getD e []).map
          (fun d => (d.id, d.cur))) :=
  C6_no_double_movement c3start ((c3start.move_cars true).1) true (by decide)

/-! ### C2: arrival destroys the car and ejects every onboard passenger -/

/-- `memRoute` against an exhausted route always fails: an arrived
car's remaining route keeps no passenger onboard. -/
lemma memRoute_nil (cu : Cur) : memRoute cu [] = false := by
  cases cu <;> simp [memRoute]

/-- `Car.peject` with an exhausted route ejects every onboard
passenger. -/
lemma pejectSplit_nil : ∀ (ps : List Passenger), pejectSplit [] ps = ([], ps) := by
  intro ps
  induction ps with
  | nil => rfl
  | cons p rest ih =>
    simp [pejectSplit, memRoute_nil, ih]

/-- The update applied to each onboard passenger when its car arrives
at vertex 1 (`chcur` with `update_inside`): position set to the vertex
and the next route entry popped. -/
def c2tf (p : Passenger) : Passenger := ((p.chcur (Cur.vert 1)).take_next).2

/-- `c2tf` preserves the passenger id. -/
lemma c2tf_id (p : Passenger) : (c2tf p).id = p.id := by
  cases hr : p.route <;> simp [c2tf, Passenger.chcur, Passenger.take_next, hr]

/-- Car one hop from its final stop: on edge 0→1, one route entry
left, carrying the passengers `ps`. -/
def c2car (ps : List Passenger) : Car :=
  { id := 0, size := 20, route := [1], cur := Cur.onEdge 0 1, inside := ps,
    can_move := true, rep := false }

/-- Two-vertex network with the arriving car on its single edge. -/
def c2net (ps : List Passenger) : Net :=
  { n := 2, edges := [(0, 1)], vweight := [1],
    vinside := [[], []], vontrack := [[], []], venroute := [[c2car ps]],
    allcars := [0], allpassengers := ps.map Passenger.id,
    car_total := 1, pgr_total := ps.length }

/-- The car as parked at vertex 1 after the movement phase of the
arrival tick: route exhausted, passengers updated, unlocked again. -/
def c2carMoved (ps : List Passenger) : Car :=
  { id := 0, size := 20, route := [], cur := Cur.vert 1, inside := ps.map c2tf,
    can_move := true, rep := false }

/-- The parked car after the same tick's transfer pass emptied it. -/
def c2carArr : Car :=
  { id := 0, size := 20, route := [], cur := Cur.vert 1, inside := [],
    can_move := true, rep := false }

/-- State of `c2net` after the movement phases of the first tick. -/
def c2afterMove (ps : List Passenger) : Net :=
  { n := 2, edges := [(0, 1)], vweight := [1],
    vinside := [[], []], vontrack := [[], [c2carMoved ps]], venroute := [[]],
    allcars := [0], allpassengers := ps.map Passenger.id,
    car_total := 1, pgr_total := ps.length }

/-- State of `c2net` after the full first tick: the car is parked and
empty, every onboard passenger now waits at vertex 1, and the car is
still registered. -/
def c2mid (ps : List Passenger) : Net :=
  { n := 2, edges := [(0, 1)], vweight := [1],
    vinside := [[], ps.map c2tf], vontrack := [[], [c2carArr]], venroute := [[]],
    allcars := [0], allpassengers := ps.map Passenger.id,
    car_total := 1, pgr_total := ps.length }

/-- State of `c2mid` after the movement phases of the second tick: the
arrived car is destroyed via the registry. -/
def c2preT (ps : List Passenger) : Net :=
  { n := 2, edges := [(0, 1)], vweight := [1],
    vinside := [[], ps.map c2tf], vontrack := [[], []], venroute := [[]],
    allcars := [], allpassengers := ps.map Passenger.id,
    car_total := 1, pgr_total := ps.length }

/-- Movement phases of the first tick: the car leaves the edge and
parks at vertex 1 with its route exhausted and every onboard
passenger's position updated. -/
lemma c2_move1 (ps : List Passenger) :
    (c2net ps).move_cars true = (c2afterMove ps, none) := rfl

/-- Movement phases of the second tick: the parked, arrived car is
popped from its vertex queue and erased from the registry. -/
lemma c2_move2 (ps : List Passenger) :
    (c2mid ps).move_cars true = (c2preT ps, none) := rfl

/-- Ejection at the arrival vertex: with its route exhausted, the
parked car keeps nobody — `peject` returns the emptied car and the
whole onboard queue. -/
lemma c2_peject (ps : List Passenger) :
    (c2carMoved ps).peject (Cur.vert 1) = some (c2carArr, ps.map c2tf) := by
  simp [Car.peject, c2carMoved, c2carArr, pejectSplit_nil]

/-- Transfer pass of the first tick: the ejected passengers are
appended to the waiting queue of vertex 1. -/
lemma c2_pt1 (ps : List Passenger) :
    (c2afterMove ps).ptransfer none = (c2mid ps, none) := by
  have h0 : ptransferVertex 0 (c2afterMove ps) = (c2afterMove ps, none) := rfl
  have hpl : pejectLoopCars (Cur.vert 1) ((c2afterMove ps).vontrack.getD 1 []) =
      ([c2carArr], ps.map c2tf, none) := by
    show pejectLoopCars (Cur.vert 1) [c2carMoved ps] = _
    simp [pejectLoopCars, c2_peject ps]
  have h1 : ptransferVertex 1 (c2afterMove ps) = (c2mid ps, none) := by
    simp only [ptransferVertex, hpl]
    simp [c2afterMove, c2mid, pvertexInsideLoop]
  show ptransferAll (List.range 2) (c2afterMove ps) = (c2mid ps, none)
  rw [show List.range 2 = [0, 1] from rfl]
  simp only [ptransferAll, h0, h1]

/-- The first full tick of the arrival scenario. -/
lemma c2_tick1 (ps : List Passenger) :
    (c2net ps).step true = (c2mid ps, none) := by
  simp only [Net.step, c2_move1 ps]
  exact c2_pt1 ps

/-- Writing back the value read by `getD` leaves the list unchanged. -/
lemma set_getD_self {α : Type} : ∀ (l : List α) (i : Nat) (d : α),
    l.set i (l.getD i d) = l := by
  intro l
  induction l with
  | nil =>
    intro i d
    rfl
  | cons a t ih =>
    intro i d
    cases i with
    | zero => rfl
    | succ i =>
      simp only [List.getD_cons_succ, List.set_cons_succ, ih i d]

/-- Waiting-queue loop of `ptransfer` at a vertex with no parked cars:
iterating once per unprocessed passenger, the arrived passengers are
dropped from the queue and erased from the registry, and the others
are appended back behind the already-processed part of the queue. -/
lemma pvertexInsideLoop_nocars (v : Nat) :
    ∀ (todo already : List Passenger) (net : Net),
    net.vinside.getD v [] = todo ++ already →
    net.vontrack.getD v [] = [] →
    (∀ p ∈ todo, p.get_next = Cur.vert v → p.id ∈ net.allpassengers) →
    (todo.map Passenger.id).Nodup →
    pvertexInsideLoop v todo.length net =
      ({ net with
          vinside := net.vinside.set v
            (already ++ todo.filter (fun p => decide (p.get_next ≠ Cur.vert v))),
          allpassengers := todo.foldl
            (fun l p => if p.get_next = Cur.vert v then l.erase p.id else l)
            net.allpassengers }, none) := by
  intro todo
  induction todo with
  | nil =>
    intro already net hq hcars hmem hnd
    simp only [List.length_nil, pvertexInsideLoop, List.filter_nil, List.foldl_nil,
      List.append_nil]
    rw [List.nil_append] at hq
    rw [← hq, set_getD_self]
  | cons p rest ih =>
    intro already net hq hcars hmem hnd
    have hv : v < net.vinside.length := by
      by_contra hge
      rw [List.getD_eq_default _ _ (Nat.le_of_not_lt hge)] at hq
      exact absurd hq.symm (by simp)
    simp only [List.length_cons, pvertexInsideLoop, hq, List.cons_append]
    by_cases hpn : p.get_next = Cur.vert v
    · -- arrived: dropped from the queue, erased from the registry
      rw [if_neg (not_not_intro hpn)]
      have hpm : p.id ∈ net.allpassengers := hmem p (List.mem_cons_self p rest) hpn
      rw [if_pos hpm]
      have hnd' : (rest.map Passenger.id).Nodup := by
        rw [List.map_cons, List.nodup_cons] at hnd
        exact hnd.2
      have hidne : ∀ q ∈ rest, q.id ≠ p.id := by
        intro q hqr he
        rw [List.map_cons, List.nodup_cons] at hnd
        exact hnd.1 (he ▸ List.mem_map_of_mem Passenger.id hqr)
      have hrec := ih already
        { net with vinside := net.vinside.set v (rest ++ already),
                   allpassengers := net.allpassengers.erase p.id }
        (getD_set_self _ _ _ _ hv) hcars
        (fun q hqr hqn => (List.mem_erase_of_ne (hidne q hqr)).mpr (hmem q (List.mem_cons_of_mem p hqr) hqn))
        hnd'
      refine hrec.trans ?_
      have hfe : (decide (p.get_next ≠ Cur.vert v)) = false :=
        decide_eq_false (not_not_intro hpn)
      simp only [List.filter_cons, hfe, Bool.false_eq_true, if_false,
        List.foldl_cons, if_pos hpn, List.set_set]
    · -- not arrived, no cars to board: appended back
      rw [if_pos hpn]
      rw [hcars]
      simp only [boardScan]
      have hnd' : (rest.map Passenger.id).Nodup := by
        rw [List.map_cons, List.nodup_cons] at hnd
        exact hnd.2
      have hrec := ih (already ++ [p])
        { net with vinside := net.vinside.set v ((rest ++ already) ++ [p]) }
        (by rw [getD_set_self _ _ _ _ hv, List.append_assoc])
        hcars
        (fun q hqr hqn => hmem q (List.mem_cons_of_mem p hqr) hqn)
        hnd'
      rw [List.set_set]
      refine hrec.trans ?_
      have hft : (decide (p.get_next ≠ Cur.vert v)) = true := decide_eq_true hpn
      simp only [List.filter_cons, hft, if_true, List.foldl_cons, if_neg hpn,
        List.set_set, List.append_assoc, List.singleton_append]

/-- The registry erasures performed by the waiting-queue loop: starting
from the queued passengers' own ids (behind an untouched prefix), the
fold keeps exactly the ids of the passengers that did not arrive. -/
lemma c2fold (v : Nat) :
    ∀ (todo : List Passenger) (pre : List Nat),
    (∀ p ∈ todo, p.get_next = Cur.vert v → p.id ∉ pre) →
    (todo.map Passenger.id).Nodup →
    todo.foldl (fun l p => if p.get_next = Cur.vert v then l.erase p.id else l)
        (pre ++ todo.map Passenger.id) =
      pre ++ (todo.filter (fun p => decide (p.get_next ≠ Cur.vert v))).map Passenger.id := by
  intro todo
  induction todo with
  | nil =>
    intro pre _ _
    simp
  | cons p rest ih =>
    intro pre hpre hnd
    rw [List.map_cons, List.foldl_cons]
    have hnd' : (rest.map Passenger.id).Nodup := by
      rw [List.map_cons, List.nodup_cons] at hnd
      exact hnd.2
    by_cases hpn : p.get_next = Cur.vert v
    · rw [if_pos hpn]
      have hnp : p.id ∉ pre := hpre p (List.mem_cons_self p rest) hpn
      have he : (pre ++ p.id :: rest.map Passenger.id).erase p.id =
          pre ++ rest.map Passenger.id := by
        rw [List.erase_append_right _ hnp, List.erase_cons_head]
      rw [he, ih pre (fun q hqr hqn => hpre q (List.mem_cons_of_mem p hqr) hqn) hnd']
      have hfe : (decide (p.get_next ≠ Cur.vert v)) = false :=
        decide_eq_false (not_not_intro hpn)
      simp only [List.filter_cons, hfe, Bool.false_eq_true, if_false]
    · rw [if_neg hpn]
      have hpre' : ∀ q ∈ rest, q.get_next = Cur.vert v → q.id ∉ pre ++ [p.id] := by
        intro q hqr hqn hmem
        rcases List.mem_append.mp hmem with hm | hm
        · exact hpre q (List.mem_cons_of_mem p hqr) hqn hm
        · rw [List.map_cons, List.nodup_cons] at hnd
          exact hnd.1 ((List.mem_singleton.mp hm) ▸ List.mem_map_of_mem Passenger.id hqr)
      have hstep : pre ++ p.id :: rest.map Passenger.id =
          (pre ++ [p.id]) ++ rest.map Passenger.id := by
        rw [List.append_assoc, List.singleton_append]
      rw [hstep, ih (pre ++ [p.id]) hpre' hnd']
      have hft : (decide (p.get_next ≠ Cur.vert v)) = true := decide_eq_true hpn
      simp only [List.filter_cons, hft, if_true, List.map_cons,
        List.append_assoc, List.singleton_append]

/-- The passenger update of the arrival tick leaves the id lists
unchanged. -/
lemma c2_map_id (ps : List Passenger) :
    (ps.map c2tf).map Passenger.id = ps.map Passenger.id := by
  rw [List.map_map]
  have hfe : (Passenger.id ∘ c2tf) = Passenger.id := funext c2tf_id
  rw [hfe]

/-- State of the arrival scenario after the second full tick: the car
is gone from every container and from the registry; the non-arrived
passengers wait at vertex 1 and the registry keeps exactly their ids. -/
def c2final (ps : List Passenger) : Net :=
  { n := 2, edges := [(0, 1)], vweight := [1],
    vinside := [[], (ps.map c2tf).filter (fun p => decide (p.get_next ≠ Cur.vert 1))],
    vontrack := [[], []], venroute := [[]],
    allcars := [],
    allpassengers :=
      ((ps.map c2tf).filter (fun p => decide (p.get_next ≠ Cur.vert 1))).map Passenger.id,
    car_total := 1, pgr_total := ps.length }

/-- Transfer pass of the second tick: each ejected passenger either
leaves the simulation at its own final stop (erased from the registry)
or is queued back waiting for an onward car. -/
lemma c2_pt2 (ps : List Passenger) (hnd : (ps.map Passenger.id).Nodup) :
    (c2preT ps).ptransfer none = (c2final ps, none) := by
  have h0 : ptransferVertex 0 (c2preT ps) = (c2preT ps, none) := rfl
  have hnd' : ((ps.map c2tf).map Passenger.id).Nodup := by
    rw [c2_map_id]
    exact hnd
  have hmem : ∀ p ∈ ps.map c2tf, p.get_next = Cur.vert 1 →
      p.id ∈ (c2preT ps).allpassengers := by
    intro p hp _
    rcases List.mem_map.mp hp with ⟨q, hq, rfl⟩
    show (c2tf q).id ∈ ps.map Passenger.id
    rw [c2tf_id]
    exact List.mem_map_of_mem Passenger.id hq
  have hloop := pvertexInsideLoop_nocars 1 (ps.map c2tf) [] (c2preT ps)
    (by simp [c2preT]) rfl hmem hnd'
  have hfold : (ps.map c2tf).foldl
      (fun l p => if p.get_next = Cur.vert 1 then l.erase p.id else l)
      (c2preT ps).allpassengers =
      ((ps.map c2tf).filter (fun p => decide (p.get_next ≠ Cur.vert 1))).map Passenger.id := by
    have hc := c2fold 1 (ps.map c2tf) [] (by simp) hnd'
    rw [List.nil_append, List.nil_append] at hc
    show (ps.map c2tf).foldl _ (ps.map Passenger.id) = _
    rw [← c2_map_id ps]
    exact hc
  have h1 : ptransferVertex 1 (c2preT ps) = (c2final ps, none) := by
    simp only [ptransferVertex, pejectLoopCars]
    show (match pvertexInsideLoop 1 ((c2preT ps).vinside.getD 1 []).length
        { c2preT ps with vontrack := (c2preT ps).vontrack.set 1 [] } with
      | (net2, some err) => (net2, some err)
      | (net2, none) =>
        ({ net2 with vinside := net2.vinside.set 1 ((net2.vinside.getD 1 []) ++ []) }, none)) = _
    rw [show ({ c2preT ps with vontrack := (c2preT ps).vontrack.set 1 [] } : Net) = c2preT ps
      from rfl]
    rw [show ((c2preT ps).vinside.getD 1 []).length = (ps.map c2tf).length from rfl]
    rw [hloop, hfold]
    simp [c2preT, c2final, List.set_set]
  show ptransferAll (List.range 2) (c2preT ps) = (c2final ps, none)
  rw [show List.range 2 = [0, 1] from rfl]
  simp only [ptransferAll, h0, h1]

/-- The second full tick of the arrival scenario. -/
lemma c2_tick2 (ps : List Passenger) (hnd : (ps.map Passenger.id).Nodup) :
    (c2mid ps).step true = (c2final ps, none) := by
  simp only [Net.step, c2_move2 ps]
  exact c2_pt2 ps hnd

/-- C2: when a car with an exhausted route arrives at its final vertex,
the same tick's transfer pass unconditionally ejects every onboard
passenger into that vertex's waiting queue and empties the car while it
is still registered; the next tick destroys the car via the registry,
removing it from every container, and no passenger disappears with it:
each ejected passenger either still waits at the arrival vertex with
its registry entry intact, or — having reached its own final stop — was
retired from the registry by the transfer pass. -/
theorem C2_arrival_eject (ps : List Passenger)
    (hnd : (ps.map Passenger.id).Nodup) :
    ∃ s1 s2,
      (c2net ps).step true = (s1, none) ∧
      s1.vinside.getD 1 [] = ps.map c2tf ∧
      (∃ c, s1.vontrack.getD 1 [] = [c] ∧ c.id = 0 ∧ c.inside = []) ∧
      0 ∈ s1.allcars ∧
      s1.step true = (s2, none) ∧
      s2.allcars = [] ∧
      (∀ v, s2.vontrack.getD v [] = []) ∧
      (∀ e, s2.venroute.getD e [] = []) ∧
      s2.vinside.getD 1 [] =
        (ps.map c2tf).filter (fun p => decide (p.get_next ≠ Cur.vert 1)) ∧
      s2.allpassengers = (s2.vinside.getD 1 []).map Passenger.id ∧
      (∀ p ∈ ps, (c2tf p).get_next ≠ Cur.vert 1 →
        c2tf p ∈ s2.vinside.getD 1 [] ∧ p.id ∈ s2.allpassengers) := by
  refine ⟨c2mid ps, c2final ps, c2_tick1 ps, rfl, ⟨c2carArr, rfl, rfl, rfl⟩,
    List.mem_cons_self 0 [], c2_tick2 ps hnd, rfl, ?_, ?_, rfl, rfl, ?_⟩
  · intro v
    rcases v with _ | _ | v <;> rfl
  · intro e
    rcases e with _ | e <;> rfl
  · intro p hp hnn
    have hf : c2tf p ∈ (ps.map c2tf).filter
        (fun p => decide (p.get_next ≠ Cur.vert 1)) :=
      List.mem_filter.mpr ⟨List.mem_map_of_mem c2tf hp, decide_eq_true hnn⟩
    refine ⟨hf, ?_⟩
    show p.id ∈ ((ps.map c2tf).filter (fun p => decide (p.get_next ≠ Cur.vert 1))).map Passenger.id
    rw [← c2tf_id p]
    exact List.mem_map_of_mem Passenger.id hf

/-- Concrete onboard queue for the C2 witness: passenger 10 gets off
for good at the arrival vertex, passenger 11 must travel on. -/
def c2ps : List Passenger :=
  [{ id := 10, route := [1], cur := Cur.onEdge 0 1 },
   { id := 11, route := [3, 5], cur := Cur.onEdge 0 1 }]

/-- C2 witness: the arrival scenario run on two concrete passengers. -/
theorem C2_witness :
    ((c2ps.map Passenger.id).Nodup) ∧
    (∃ s1 s2,
      (c2net c2ps).step true = (s1, none) ∧
      s1.vinside.getD 1 [] = c2ps.map c2tf ∧
      (∃ c, s1.vontrack.getD 1 [] = [c] ∧ c.id = 0 ∧ c.inside = []) ∧
      0 ∈ s1.allcars ∧
      s1.step true = (s2, none) ∧
      s2.allcars = [] ∧
      (∀ v, s2.vontrack.getD v [] = []) ∧
      (∀ e, s2.venroute.getD e [] = []) ∧
      s2.vinside.getD 1 [] =
        (c2ps.map c2tf).filter (fun p => decide (p.get_next ≠ Cur.vert 1)) ∧
      s2.allpassengers = (s2.vinside.getD 1 []).map Passenger.id ∧
      (∀ p ∈ c2ps, (c2tf p).get_next ≠ Cur.vert 1 →
        c2tf p ∈ s2.vinside.getD 1 [] ∧ p.id ∈ s2.allpassengers)) :=
  ⟨by decide, C2_arrival_eject c2ps (by decide)⟩
